import Mathlib

set_option maxRecDepth 10000

/-!
Verification development for the concurrent skip-list priority queue
(`prioq.c`) and its benchmark harness (`perf_meas.c`).

The code is shallowly embedded as a sequential interpreter: the heap is a
map from node ids to nodes, tagged pointers carry an explicit mark bit,
and every operation is a state-passing function returning `Option`
(`none` models a failed assertion, an invalid dereference, or loop fuel
running out).  Shared-memory accesses are counted, together with whether
they happen inside a `critical_enter`/`critical_exit` section, so that
the epoch-protection claims can be stated.
-/

namespace PrioQ

/-- Modelled from the spec: `NUM_LEVELS` is defined in the header
`prioq.h`, which is not among the sources; the spec (section 3) says it
is "typically 32". -/
def NUM_LEVELS : Nat := 32

/-- Modelled from the spec: sentinel keys from the missing header
`prioq.h`; spec section 3: `SENTINEL_KEYMIN = 0`,
`SENTINEL_KEYMAX = UINT64_MAX`. -/
def SENTINEL_KEYMAX : Nat := 2 ^ 64 - 1

def SENTINEL_KEYMIN : Nat := 0

/-- A pointer value stripped of its mark bit: the null pointer, the
`END` pattern (`memset(t->next, 0xfe, ...)` in `set_alloc` fills the
tail's forward pointers with a word that compares equal to `END` and
does not look like a marked value), or a pointer to a node.  Nodes are
named by allocation ids in the embedding; id 0 is the list head
sentinel, id 1 the tail sentinel. -/
inductive Ref where
  | null
  | END
  | node (id : Nat)
deriving DecidableEq, Repr

/-- A tagged pointer word: a reference together with the low mark bit.
`portable_defns.h` is not among the sources; the tagging layer is
modelled from the spec, section 4.1 (low bit of the word is the mark,
nodes are at least 2-byte aligned). -/
structure Ptr where
  ref : Ref
  mark : Bool
deriving DecidableEq, Repr

def get_unmarked_ref (p : Ptr) : Ptr := { p with mark := false }

def get_marked_ref (p : Ptr) : Ptr := { p with mark := true }

def is_marked_ref (p : Ptr) : Bool := p.mark

/-- A skip-list node (`node_t`): key, value, level and the forward
pointers `next[i]`.  Keys and values are machine words, embedded as
`Nat`. -/
structure Node where
  k : Nat
  v : Nat
  level : Nat
  next : Nat → Ptr

/-- Global state: the heap of nodes, the `set_t` fields (`max_offset`,
`max_level`), the allocator, the per-thread RNG stream (`rand_next` of
the missing `ptst.h`, modelled as an arbitrary stream of words), the
thread-local cache of `set_removemin` (`pt`, `old_obs_hp`,
`old_offset`, zero-initialised as C `__thread` variables are), the list
of nodes handed to `gc_free`, and the instrumentation for epoch
protection: `inCrit` is true between `critical_enter` and
`critical_exit`, `total` counts shared-memory accesses, and `unprot`
counts those performed outside a critical section. -/
structure St where
  nodes : Nat → Node
  maxOffset : Nat
  maxLevel : Nat
  nextId : Nat
  rands : Nat → Nat
  randIdx : Nat
  pt : Ref
  old_obs_hp : Ptr
  old_offset : Nat
  freed : List Nat
  inCrit : Bool
  total : Nat
  unprot : Nat

/-- Record one shared-memory access. -/
def bump (s : St) : St :=
  { s with total := s.total + 1,
           unprot := if s.inCrit then s.unprot else s.unprot + 1 }

/-- Read a whole node through an (unmarked) reference; dereferencing
`NULL` or the `END` pattern is invalid. -/
def getNode (r : Ref) (s : St) : Option (Node × St) :=
  match r with
  | .node i => some (s.nodes i, bump s)
  | _ => none

/-- `x->next[i]` -/
def readNext (x : Ref) (i : Nat) (s : St) : Option (Ptr × St) :=
  match getNode x s with
  | none => none
  | some (n, s) => some (n.next i, s)

/-- `x->k` -/
def readKey (x : Ref) (s : St) : Option (Nat × St) :=
  match getNode x s with
  | none => none
  | some (n, s) => some (n.k, s)

/-- `x->v` -/
def readVal (x : Ref) (s : St) : Option (Nat × St) :=
  match getNode x s with
  | none => none
  | some (n, s) => some (n.v, s)

/-- `x->level` (the `LEVEL_MASK` of the missing header is modelled as
the identity: the embedding keeps the level field unpacked). -/
def readLevel (x : Ref) (s : St) : Option (Nat × St) :=
  match getNode x s with
  | none => none
  | some (n, s) => some (n.level, s)

/-- Update the heap at node `id`, forward pointer `i`. -/
def setNext (s : St) (id i : Nat) (p : Ptr) : St :=
  { s with
    nodes := Function.update s.nodes id
        ({ s.nodes id with next := Function.update (s.nodes id).next i p }) }

/-- `x->next[i] = p` (a plain store). -/
def writeNext (x : Ref) (i : Nat) (p : Ptr) (s : St) : Option (Unit × St) :=
  match x with
  | .node id => some ((), bump (setNext s id i p))
  | _ => none

def writeKey (x : Ref) (k : Nat) (s : St) : Option (Unit × St) :=
  match x with
  | .node id => some ((), bump
      ({ s with nodes := Function.update s.nodes id ({ s.nodes id with k := k }) }))
  | _ => none

def writeVal (x : Ref) (v : Nat) (s : St) : Option (Unit × St) :=
  match x with
  | .node id => some ((), bump
      ({ s with nodes := Function.update s.nodes id ({ s.nodes id with v := v }) }))
  | _ => none

def writeLevel (x : Ref) (l : Nat) (s : St) : Option (Unit × St) :=
  match x with
  | .node id => some ((), bump
      ({ s with nodes := Function.update s.nodes id ({ s.nodes id with level := l }) }))
  | _ => none

/-- `CASPO(&x->next[i], old, new)`: atomic compare-and-swap on a
forward pointer, returning the previous value. -/
def caspo (x : Ref) (i : Nat) (old new : Ptr) (s : St) : Option (Ptr × St) :=
  match x with
  | .node id =>
      let cur := (s.nodes id).next i
      if cur = old then some (cur, bump (setNext s id i new))
      else some (cur, bump s)
  | _ => none

/-- `__sync_fetch_and_add((uint64_t *)&x->next[0], 1)`: on an aligned,
unmarked pointer word adding 1 sets the mark bit.  The interpreter only
reaches it on words it has just observed unmarked; applying it to an
already marked word would shift the pointer itself, which the word-level
model `mark_faa` below makes explicit, so that case is ruled invalid
here. -/
def faa0 (x : Ref) (s : St) : Option (Ptr × St) :=
  match x with
  | .node id =>
      let cur := (s.nodes id).next 0
      if cur.mark then none
      else some (cur, bump (setNext s id 0 { cur with mark := true }))
  | _ => none

/-- `FAO(&x->next[0], 1)`: fetch-and-or on the mark bit (used by
`set_remove`), returning the previous word. -/
def fao0 (x : Ref) (s : St) : Option (Ptr × St) :=
  match x with
  | .node id =>
      let cur := (s.nodes id).next 0
      some (cur, bump (setNext s id 0 { cur with mark := true }))
  | _ => none

/-- Modelled from the spec: `critical_enter` of the missing `ptst.h`
pins the thread's epoch (spec section 4.2); the embedding records that
subsequent accesses are protected. -/
def critical_enter (s : St) : Option (Unit × St) :=
  some ((), { s with inCrit := true })

/-- Modelled from the spec: `critical_exit` releases the epoch. -/
def critical_exit (s : St) : Option (Unit × St) :=
  some ((), { s with inCrit := false })

/-- Modelled from the spec: `rand_next(ptst)` draws the next word of the
per-thread RNG (missing `ptst.h`); the embedding reads an arbitrary
given stream. -/
def rand_next (s : St) : Option (Nat × St) :=
  some (s.rands s.randIdx, { s with randIdx := s.randIdx + 1 })

/-- Count of trailing one bits, structurally bounded: `m / 2 < m`
whenever `m` is odd, so a bound of `m` steps is enough. -/
def ctoAux : Nat → Nat → Nat
  | 0, _ => 0
  | b + 1, m => if m % 2 = 1 then ctoAux b (m / 2) + 1 else 0

/-- Count of trailing one bits: the loop
`while (r & 1) { l++; r >>= 1; }` of `get_level`. -/
def cto (m : Nat) : Nat := ctoAux m m

/-- The pure core of `get_level`:
`r = (r >> 4) & ((1 << (NUM_LEVELS-1)) - 1)` followed by counting
trailing ones starting from `l = 1`. -/
def level_of (r : Nat) : Nat :=
  1 + cto ((r >>> 4) &&& ((1 <<< (NUM_LEVELS - 1)) - 1))

/-- `get_level(ptst)`: draw a word, return a level in `1..NUM_LEVELS`. -/
def get_level (s : St) : Option (Nat × St) :=
  match rand_next s with
  | none => none
  | some (r, s) => some (level_of r, s)

/-- `gc_alloc`: hand out a fresh node id (contents uninitialised; the
embedding zeroes them, `alloc_node` immediately overwrites the level and
`set_update` the key, value and forward pointers before publication). -/
def gc_alloc (s : St) : Option (Nat × St) :=
  some (s.nextId,
    { s with
      nextId := s.nextId + 1,
      nodes := Function.update s.nodes s.nextId
          ({ k := 0, v := 0, level := 0, next := fun _ => ⟨.null, false⟩ }) })

/-- `alloc_node`: allocate and initialise the `level` field. -/
def alloc_node (s : St) : Option (Nat × St) :=
  match get_level s with
  | none => none
  | some (l, s) =>
    match gc_alloc s with
    | none => none
    | some (n, s) =>
      match writeLevel (.node n) l s with
      | none => none
      | some (_, s) => some (n, s)

/-- `free_node`: read `n->level` for the pool id and hand the node to
the epoch collector (spec section 4.2: actual reclamation is deferred;
the embedding records the node in `freed`). -/
def free_node (x : Ref) (s : St) : Option (Unit × St) :=
  match readLevel x s with
  | none => none
  | some (_, s) =>
    match x with
    | .node id => some ((), { s with freed := s.freed ++ [id] })
    | _ => none

/-- The head sentinel built by `set_alloc`: key `SENTINEL_KEYMIN`,
level `NUM_LEVELS`, every forward pointer aimed at the tail. -/
def headNode : Node :=
  { k := SENTINEL_KEYMIN, v := 0, level := NUM_LEVELS,
    next := fun _ => ⟨.node 1, false⟩ }

/-- The tail sentinel built by `set_alloc`: key `SENTINEL_KEYMAX`, the
level left zeroed by `memset`, forward pointers filled with the `END`
pattern. -/
def tailNode : Node :=
  { k := SENTINEL_KEYMAX, v := 0, level := 0,
    next := fun _ => ⟨.END, false⟩ }

/-- `set_alloc(max_offset, max_level)` plus the zero-initialised
thread-local state of one thread and an RNG stream. -/
def set_alloc (maxOffset maxLevel : Nat) (rands : Nat → Nat) : St :=
  { nodes := fun i =>
      if i = 0 then headNode
      else if i = 1 then tailNode
      else { k := 0, v := 0, level := 0, next := fun _ => ⟨.null, false⟩ },
    maxOffset := maxOffset, maxLevel := maxLevel, nextId := 2,
    rands := rands, randIdx := 0,
    pt := .null, old_obs_hp := ⟨.null, false⟩, old_offset := 0,
    freed := [], inCrit := false, total := 0, unprot := 0 }

/-!  `weak_search_predecessors` (prioq.c lines 169-197).  The inner
loop walks level `i`; `x_next = get_unmarked_ref(x->next[i])`, the key
of `x_next` is read (the `assert(x_next != END)` is the failure of that
read), and the walk stops when `x_next_k > k || (bef && x_next_k == k)`.
The outer loop runs the levels from `NUM_LEVELS-1` down to `0`,
recording `pa[i] = x` and `na[i] = x_next`; the main return value is the
final `x`. -/

def wspInner (k : Nat) (bef : Bool) (i : Nat) :
    Nat → Ref → St → Option ((Ref × Ptr) × St)
  | 0, _, _ => none
  | fuel + 1, x, s =>
    match readNext x i s with
    | none => none
    | some (xn, s) =>
      let xn := get_unmarked_ref xn
      match readKey xn.ref s with
      | none => none
      | some (xnk, s) =>
        if k < xnk ∨ (bef = true ∧ xnk = k) then some ((x, xn), s)
        else wspInner k bef i fuel xn.ref s

def wspLevels (k : Nat) (bef : Bool) (fuel : Nat) :
    Nat → Ref → (Nat → Ref) → (Nat → Ref) → St →
    Option ((Ref × (Nat → Ref) × (Nat → Ref)) × St)
  | 0, x, pa, na, s => some ((x, pa, na), s)
  | j + 1, x, pa, na, s =>
    match wspInner k bef j fuel x s with
    | none => none
    | some ((x, xn), s) =>
      wspLevels k bef fuel j x
        (Function.update pa j x) (Function.update na j xn.ref) s

def weak_search_predecessors (k : Nat) (bef : Bool) (fuel : Nat) (s : St) :
    Option ((Ref × (Nat → Ref) × (Nat → Ref)) × St) :=
  wspLevels k bef fuel NUM_LEVELS (.node 0) (fun _ => .null) (fun _ => .null) s

/-!  `weak_search_head` (prioq.c lines 108-127): starting from the
head, at each level walk forward along unmarked pointers while the next
node's own `next[0]` is marked; return the final `x_next`. -/

def wshInner (i : Nat) : Nat → Ref → St → Option ((Ref × Ref) × St)
  | 0, _, _ => none
  | fuel + 1, x, s =>
    match readNext x i s with
    | none => none
    | some (xn, s) =>
      let xn := get_unmarked_ref xn
      if xn = ⟨.END, false⟩ then some ((x, xn.ref), s)
      else
        match readNext xn.ref 0 s with
        | none => none
        | some (p, s) =>
          if is_marked_ref p = false then some ((x, xn.ref), s)
          else wshInner i fuel xn.ref s

def wshLevels (fuel : Nat) : Nat → Ref → Ref → St → Option (Ref × St)
  | 0, _, lastXn, s => some (lastXn, s)
  | j + 1, x, _, s =>
    match wshInner j fuel x s with
    | none => none
    | some ((x, xn), s) => wshLevels fuel j x xn s

def weak_search_head (fuel : Nat) (s : St) : Option (Ref × St) :=
  wshLevels fuel NUM_LEVELS (.node 0) .null s

/-!  `weak_search_end` (prioq.c lines 130-158): from `start_lvl` down to
level 1, walk forward past nodes whose `next[0]` is marked, recording
the last such node in `pa[i]` and the first level `lvl` that actually
needed updating.  `toplvl = -1` is embedded as `none`. -/

def wseInner (i : Nat) : Nat → Ref → Nat → St → Option ((Ref × Nat) × St)
  | 0, _, _, _ => none
  | fuel + 1, x, lvl, s =>
    match readNext x i s with
    | none => none
    | some (x_next, s) =>
      if x_next.mark then none  -- upper-level pointers are never marked
      else
        match readNext x_next.ref 0 s with
        | none => none
        | some (p, s) =>
          if is_marked_ref p = false then some ((x, lvl), s)
          else
            let lvl := if lvl = 0 then i else lvl
            wseInner i fuel x_next.ref lvl s

def wseLevels (fuel : Nat) : Nat → Ref → (Nat → Ref) → Nat → St →
    Option (((Nat → Ref) × Nat) × St)
  | 0, _, pa, lvl, s => some ((pa, lvl), s)
  | i + 1, x, pa, lvl, s =>
    match wseInner (i + 1) fuel x lvl s with
    | none => none
    | some ((x, lvl), s) =>
      wseLevels fuel i x (Function.update pa (i + 1) x) lvl s

def weak_search_end (toplvl : Option Nat) (fuel : Nat) (pa : Nat → Ref)
    (s : St) : Option (((Nat → Ref) × Nat) × St) :=
  let start := match toplvl with | none => NUM_LEVELS - 1 | some t => t
  let lvl0 := match toplvl with
    | none => 0
    | some t => if 0 < t then t else 0
  wseLevels fuel start (.node 0) pa lvl0 s

/-!  `set_update` (prioq.c lines 255-364). -/

/-- The initialisation loop `for (i = 0; i < level; i++)
new->next[i] = succs[i];` (lines 282-285). -/
def initNexts (newId : Nat) (succs : Nat → Ref) : Nat → St → Option (Unit × St)
  | 0, s => some ((), s)
  | i + 1, s =>
    match initNexts newId succs i s with
    | none => none
    | some (_, s) => writeNext (.node newId) i ⟨succs i, false⟩ s

/-- The orphan-placement loop (lines 298-313), entered when the level-0
commit CAS failed because `preds[0]`'s forward pointer was marked: walk
forward; wherever an unmarked `next[0]` is found, try to squeeze the
(demoted) node in; every 10 failed hops restart from
`weak_search_head`. -/
def orphanLoop (newId : Nat) (wfuel : Nat) : Nat → Nat → Ref → St →
    Option (Unit × St)
  | 0, _, _, _ => none
  | fuel + 1, loop0, x, s =>
    let loop0 := loop0 + 1
    match (if 10 < loop0 then
             match weak_search_head wfuel s with
             | none => none
             | some (xh, s) => some ((0, xh), s)
           else some ((loop0, x), s)) with
    | none => none
    | some ((loop0, x), s) =>
      match readNext x 0 s with
      | none => none
      | some (x_next, s) =>
        if is_marked_ref x_next = false then
          match writeNext (.node newId) 0 x_next s with
          | none => none
          | some (_, s) =>
            match caspo x 0 x_next ⟨.node newId, false⟩ s with
            | none => none
            | some (old, s) =>
              if old = x_next then some ((), s)
              else orphanLoop newId wfuel fuel loop0 (get_unmarked_ref x_next).ref s
        else orphanLoop newId wfuel fuel loop0 (get_unmarked_ref x_next).ref s

/-- The upper-level linking loop `while (i < level)` (lines 324-361). -/
def upperInsLoop (k newId level : Nat) (wfuel : Nat) :
    Nat → Nat → (Nat → Ref) → (Nat → Ref) → St → Option (Unit × St)
  | 0, _, _, _, _ => none
  | fuel + 1, i, preds, succs, s =>
    if i < level then
      let pred := preds i
      let succ := succs i
      match readKey (.node newId) s with
      | none => none
      | some (nk, s) =>
        if nk ≠ k then some ((), s)
        else
          match readNext (.node newId) i s with
          | none => none
          | some (new_next, s) =>
            match (if new_next ≠ ⟨succ, false⟩ then
                     match caspo (.node newId) i new_next ⟨succ, false⟩ s with
                     | none => none
                     | some (old, s) =>
                       if is_marked_ref old then some ((true, s))
                       else if old ≠ new_next then none  -- assert(old_next == new_next)
                       else some ((false, s))
                   else some ((false, s))) with
            | none => none
            | some (stop, s) =>
              if stop then some ((), s)
              else
                match readKey pred s with
                | none => none
                | some (pk, s) =>
                  if k < pk then none  -- assert(pred->k <= k)
                  else
                    match caspo pred i ⟨succ, false⟩ ⟨.node newId, false⟩ s with
                    | none => none
                    | some (old, s) =>
                      if old ≠ ⟨succ, false⟩ then
                        match readNext (.node newId) 0 s with
                        | none => none
                        | some (nx0, s) =>
                          if is_marked_ref nx0 then some ((), s)
                          else
                            match readKey (.node newId) s with
                            | none => none
                            | some (nk2, s) =>
                              if nk2 ≠ k then some ((), s)
                              else
                                match weak_search_predecessors k false wfuel s with
                                | none => none
                                | some ((_, preds2, succs2), s) =>
                                  if succs2 0 ≠ .node newId then some ((), s)
                                  else upperInsLoop k newId level wfuel fuel i preds2 succs2 s
                      else upperInsLoop k newId level wfuel fuel (i + 1) preds succs s
    else some ((), s)

/-- The body of `set_update` from the `retry` label (lines 267-361):
allocate the node once, search, commit at level 0, and either handle a
marked predecessor (orphan placement), retry after a competing insert,
or link the upper levels. -/
def updateBody (k v : Nat) (wfuel : Nat) : Nat → Option Nat → St →
    Option (Unit × St)
  | 0, _, _ => none
  | fuel + 1, newOpt, s =>
    match (match newOpt with
           | none =>
             match alloc_node s with
             | none => none
             | some (n, s) =>
               match writeKey (.node n) k s with
               | none => none
               | some (_, s) =>
                 match writeVal (.node n) v s with
                 | none => none
                 | some (_, s) => some (n, s)
           | some n => some (n, s)) with
    | none => none
    | some (newId, s) =>
      match readLevel (.node newId) s with
      | none => none
      | some (level, s) =>
        match weak_search_predecessors k false wfuel s with
        | none => none
        | some ((_, preds, succs), s) =>
          let succ := succs 0
          match initNexts newId succs level s with
          | none => none
          | some (_, s) =>
            match caspo (preds 0) 0 ⟨succ, false⟩ ⟨.node newId, false⟩ s with
            | none => none
            | some (old, s) =>
              if old ≠ ⟨succ, false⟩ then
                match readNext (preds 0) 0 s with
                | none => none
                | some (p0, s) =>
                  if is_marked_ref p0 then
                    match writeLevel (.node newId) 1 s with
                    | none => none
                    | some (_, s) =>
                      orphanLoop newId wfuel wfuel 0 (get_unmarked_ref p0).ref s
                  else
                    -- competing insert: re-search, then goto retry
                    match weak_search_predecessors k false wfuel s with
                    | none => none
                    | some (_, s) => updateBody k v wfuel fuel (some newId) s
              else upperInsLoop k newId level wfuel wfuel 1 preds succs s

/-- `set_update(l, k, v)` (lines 255-364): insert inside a critical
section. -/
def set_update (k v : Nat) (fuel : Nat) (s : St) : Option (Unit × St) :=
  match critical_enter s with
  | none => none
  | some (_, s) =>
    match updateBody k v fuel fuel none s with
    | none => none
    | some (_, s) => critical_exit s

/-!  `set_removemin` (prioq.c lines 370-469). -/

/-- The bottom-level traversal `do { ... } while (is_marked_ref(x_next)
&& (x = get_unmarked_ref(x_next)))` (lines 392-414).  Result `.inl k`
is the early `return NULL` when the `END` pattern is reached (line 405;
note it skips `critical_exit`); `.inr (x_next, offset)` is the normal
exit where `x_next` is the freshly marked victim. -/
def rmLoop : Nat → Ref → Nat → St → Option ((Sum Nat (Ptr × Nat)) × St)
  | 0, _, _, _ => none
  | fuel + 1, x, offset, s =>
    let offset := offset + 1
    match readNext x 0 s with
    | none => none
    | some (x_next, s) =>
      if x_next = ⟨.END, false⟩ then some (.inl 0, s)
      else
        match (if is_marked_ref x_next then some (x_next, s)
               else faa0 x s) with
        | none => none
        | some (x_next, s) =>
          if is_marked_ref x_next then
            rmLoop fuel (get_unmarked_ref x_next).ref offset s
          else some (.inr (x_next, offset), s)

/-- The inner retry loop of the upper-level head swing
(lines 449-454). -/
def upperCasLoop (i : Nat) (wfuel : Nat) : Nat → (Nat → Ref) → Ptr → St →
    Option ((Nat → Ref) × St)
  | 0, _, _, _ => none
  | fuel + 1, pa, next, s =>
    match readNext (pa i) i s with
    | none => none
    | some (pn, s) =>
      match caspo (.node 0) i next pn s with
      | none => none
      | some (old, s) =>
        if old = next then some (pa, s)
        else
          match weak_search_end (some i) wfuel pa s with
          | none => none
          | some ((pa, _), s) =>
            match readNext (.node 0) i s with
            | none => none
            | some (next, s) => upperCasLoop i wfuel fuel pa next s

/-- `for (int i = lvl; i > 0; i--) ...` (lines 447-455). -/
def upperLevels (wfuel : Nat) : Nat → (Nat → Ref) → St → Option (Unit × St)
  | 0, _, s => some ((), s)
  | i + 1, pa, s =>
    match readNext (.node 0) (i + 1) s with
    | none => none
    | some (next, s) =>
      match upperCasLoop (i + 1) wfuel wfuel pa next s with
      | none => none
      | some (pa, s) => upperLevels wfuel i pa s

/-- The reclamation walk (lines 458-462): free every node from the old
head prefix up to (excluding) the new auxiliary node. -/
def freeLoop (xEnd : Ref) : Nat → Ref → St → Option (Unit × St)
  | 0, _, _ => none
  | fuel + 1, cur, s =>
    if cur = xEnd then some ((), s)
    else
      match free_node cur s with
      | none => none
      | some (_, s) =>
        match readNext cur 0 s with
        | none => none
        | some (nxt, s) => freeLoop xEnd fuel (get_unmarked_ref nxt).ref s

/-- The head-swing cleanup (lines 433-463): mark the victim pointer
value, CAS the bottom head pointer from the observed `obs_hp` to it;
the winner repairs the upper levels and recycles the detached prefix,
a loser does nothing further. -/
def rmCleanup (xv : Ptr) (obs_hp : Ptr) (fuel : Nat) (s : St) :
    Option (Unit × St) :=
  let x := get_marked_ref xv
  match caspo (.node 0) 0 obs_hp x s with
  | none => none
  | some (old, s) =>
    if old = obs_hp then
      match weak_search_end none fuel (fun _ => .null) s with
      | none => none
      | some ((pa, lvl), s) =>
        match readNext (.node 0) 0 s with
        | none => none
        | some (h0, s) =>
          if h0 ≠ x then some ((), s)  -- next restructuring has started
          else
            match upperLevels fuel lvl pa s with
            | none => none
            | some (_, s) =>
              freeLoop (get_unmarked_ref x).ref fuel (get_unmarked_ref obs_hp).ref s
    else some ((), s)

/-- The tail of `set_removemin` after the traversal (lines 427-468):
read the cached `obs_hp`, decide whether to attempt the head swing, and
leave the critical section returning the key. -/
def rmFinish (k : Nat) (xv : Ptr) (fuel : Nat) (s : St) : Option (Nat × St) :=
  let obs_hp := s.old_obs_hp
  match readNext (.node 0) 0 s with
  | none => none
  | some (h, s) =>
    if s.old_offset ≤ s.maxOffset ∨ h ≠ obs_hp then
      match critical_exit s with
      | none => none
      | some (_, s) => some (k, s)
    else
      match rmCleanup xv obs_hp fuel s with
      | none => none
      | some (_, s) =>
        match critical_exit s with
        | none => none
        | some (_, s) => some (k, s)

/-- `set_removemin(l)` (lines 370-469). -/
def set_removemin (fuel : Nat) (s : St) : Option (Nat × St) :=
  match critical_enter s with
  | none => none
  | some (_, s) =>
    match readNext (.node 0) 0 s with
    | none => none
    | some (h0, s) =>
      match (if s.old_obs_hp = h0 then some (s.pt, s)
             else
               match readNext (.node 0) 0 s with
               | none => none
               | some (hp, s) =>
                 some (Ref.node 0,
                   { s with old_offset := 0, old_obs_hp := hp })) with
      | none => none
      | some (x, s) =>
        match rmLoop fuel x 0 s with
        | none => none
        | some (.inl k, s) => some (k, s)  -- line 405: return NULL, no critical_exit
        | some (.inr (x_next, offset), s) =>
          let s := { s with pt := x_next.ref, old_offset := s.old_offset + offset }
          match readVal x_next.ref s with
          | none => none
          | some (_, s) =>
            match readKey x_next.ref s with
            | none => none
            | some (k, s) => rmFinish k x_next fuel s

/-- `set_remove(l, key)` (prioq.c lines 471-481): position with the
`bef = true` search, fetch-or the mark, and return `NULL` if the word
was already marked, otherwise the previous pointer word. -/
def set_remove (key : Nat) (fuel : Nat) (s : St) : Option (Option Ptr × St) :=
  match weak_search_predecessors key true fuel s with
  | none => none
  | some ((x, _, _), s) =>
    match fao0 x s with
    | none => none
    | some (old, s) =>
      if is_marked_ref old then some (none, s)
      else some (some old, s)

/-!  Priority-queue facade and benchmark workload. -/

/-- Modelled from the spec: the facade (spec section 4.7) delegates
`insert` to `set_update`; `pq.h` is not among the sources. -/
def insert (k v : Nat) (fuel : Nat) (s : St) : Option (Unit × St) :=
  set_update k v fuel s

/-- Modelled from the spec: `deletemin` delegates to `set_removemin`. -/
def deletemin (fuel : Nat) (s : St) : Option (Nat × St) :=
  set_removemin fuel s

/-- Modelled from the spec: `pq_init(offset)` creates the skip list with
`max_offset = offset` and `max_level = NUM_LEVELS` (spec section 4.7). -/
def pq_init (offset : Nat) (rands : Nat → Nat) : St :=
  set_alloc offset NUM_LEVELS rands

/-- The POSIX `rand48` linear congruential step
`X' = (0x5DEECE66D * X + 0xB) mod 2^48`, shared by `erand48` and
`nrand48` (the C library is external to the repository). -/
def rand48_step (x : Nat) : Nat :=
  (25214903917 * x + 11) % 2 ^ 48

/-- `erand48` returns the advanced state divided by `2^48` as a double;
`erand48(rng) < 0.5` therefore holds exactly when the advanced 48-bit
state is below `2^47` (the quotient of a 48-bit integer by `2^48` is
exact in binary floating point). -/
def erand48_lt_half (x : Nat) : Bool :=
  rand48_step x < 2 ^ 47

/-- `nrand48` returns the high 31 bits of the advanced 48-bit state
(POSIX: a value uniformly distributed over `[0, 2^31)`). -/
def nrand48 (x : Nat) : Nat :=
  rand48_step x >>> 17

/-- The key inserted by the uniform workload:
`elem = (unsigned long)1 + nrand48(args->rng)` (perf_meas.c line 231),
as a function of the RNG state before the `erand48` call. -/
def uniInsertKey (x : Nat) : Nat :=
  1 + nrand48 (rand48_step x)

/-- `work_uni` (perf_meas.c lines 225-235): with probability 0.5 insert
a fresh pseudorandom key (value = key), otherwise delete the minimum.
Returns the advanced RNG state. -/
def work_uni (x : Nat) (fuel : Nat) (s : St) : Option (Nat × St) :=
  let x1 := rand48_step x
  if erand48_lt_half x then
    let elem := uniInsertKey x
    match insert elem elem fuel s with
    | none => none
    | some (_, s) => some (rand48_step x1, s)
  else
    match deletemin fuel s with
    | none => none
    | some (_, s) => some (x1, s)

/-!  Word-level model of the marking step (for the idempotence claim):
an aligned pointer word is a 64-bit even number; the mark is the low
bit. -/

/-- `is_marked_ref` on a raw 64-bit word. -/
def word_is_marked (w : Nat) : Bool := w % 2 = 1

/-- The implementation's marking step
(`__sync_fetch_and_add(&x->next[0], 1)`, prioq.c line 410): returns the
old word, stores `w + 1` (mod `2^64`). -/
def mark_faa (w : Nat) : Nat × Nat := (w, (w + 1) % 2 ^ 64)

/-- The specified marking step (fetch-or-1): returns the old word,
stores `w | 1`. -/
def mark_fao (w : Nat) : Nat × Nat := (w, w ||| 1)

/-!  Concrete states used by several theorems below. -/

/-- An RNG stream of zeros: every allocated node gets level 1. -/
def zeroRands : Nat → Nat := fun _ => 0

/-- A fresh queue with the benchmark's default `max_offset = 32`. -/
def q0 : St := set_alloc 32 NUM_LEVELS zeroRands

/-- The queue `q0` after `set_update(5, 99)`: one live node (id 2) with
key 5 and value 99. -/
def q5 : St := ((set_update 5 99 100 q0).map Prod.snd).getD q0

/-- The keys returned by
`insert(5); insert(3); insert(7); delete_min ×4` on a state `s`
(the inserted value is the key, as in the benchmark harness). -/
def seqRunKeys (s : St) : Option (List Nat) :=
  match set_update 5 5 100 s with
  | none => none
  | some (_, s) =>
  match set_update 3 3 100 s with
  | none => none
  | some (_, s) =>
  match set_update 7 7 100 s with
  | none => none
  | some (_, s) =>
  match set_removemin 100 s with
  | none => none
  | some (k1, s) =>
  match set_removemin 100 s with
  | none => none
  | some (k2, s) =>
  match set_removemin 100 s with
  | none => none
  | some (k3, s) =>
  match set_removemin 100 s with
  | none => none
  | some (k4, _) => some [k1, k2, k3, k4]

/-- An RNG stream whose first three draws give `get_level` results 4, 2
and 3 (a word with `j` trailing ones after the `>> 4` shift yields level
`j + 1`). -/
def mixedRands : Nat → Nat := fun n =>
  if n = 0 then 7 * 16 else if n = 1 then 1 * 16 else 3 * 16

/-- An RNG stream giving levels 32, 1 and 17. -/
def tallRands : Nat → Nat := fun n =>
  if n = 0 then (2 ^ 31 - 1) * 16 else if n = 1 then 0 else (2 ^ 16 - 1) * 16

/-!  Arithmetic helpers about the mark bit of a raw word. -/

theorem or_one_even (m : Nat) : 2 * m ||| 1 = 2 * m + 1 := by
  rcases Nat.eq_zero_or_pos m with h | h
  · subst h; decide
  · show Nat.bitwise or (2 * m) 1 = 2 * m + 1
    rw [Nat.bitwise]
    have h2 : ¬ (2 * m = 0) := by omega
    simp [h2, Nat.mul_mod_right, Nat.mul_div_cancel_left, Nat.or_zero]
    omega

theorem or_one_odd (m : Nat) : (2 * m + 1) ||| 1 = 2 * m + 1 := by
  show Nat.bitwise or (2 * m + 1) 1 = 2 * m + 1
  rw [Nat.bitwise]
  have h2 : ¬ (2 * m + 1 = 0) := by omega
  simp [h2, Nat.mul_add_mod, (by omega : (2 * m + 1) / 2 = m), Nat.or_zero]
  omega

theorem or_one_cases (w : Nat) : w ||| 1 = w + 1 - w % 2 := by
  rcases Nat.mod_two_eq_zero_or_one w with h | h
  · have hw : w = 2 * (w / 2) := by omega
    rw [hw, or_one_even]; omega
  · have hw : w = 2 * (w / 2) + 1 := by omega
    rw [hw, or_one_odd]; omega

/-!  Characterisation of `weak_search_predecessors`.  In the code the
`bef = false` (insert) variant advances while the unmarked next key is
`≤ k` and stops at the first key `> k`; the `bef = true` (remove)
variant advances while the key is `< k` and stops at the first key
`≥ k` (prioq.c line 187). -/

/-- The predecessor recorded by the search: the head (id 0), or a node
whose key the walk advanced past — strictly below `k` for `bef = true`,
at most `k` for the insert variant. -/
def predOK (ns : Nat → Node) (k : Nat) (bef : Bool) (r : Ref) : Prop :=
  ∃ id, r = .node id ∧
    (id = 0 ∨ (if bef then (ns id).k < k else (ns id).k ≤ k))

/-- The successor at which the walk stopped: the first key `≥ k` for
`bef = true`, the first key `> k` for the insert variant. -/
def succOK (ns : Nat → Node) (k : Nat) (bef : Bool) (r : Ref) : Prop :=
  ∃ vi, r = .node vi ∧
    (if bef then k ≤ (ns vi).k else k < (ns vi).k)

/-- `succ` is the unmarked target of `pred`'s forward pointer at level
`i`. -/
def linkOK (ns : Nat → Node) (i : Nat) (pred succ : Ref) : Prop :=
  ∃ ri, pred = .node ri ∧ succ = ((ns ri).next i).ref

theorem wspInner_post : ∀ fuel k bef i x s r s',
    wspInner k bef i fuel x s = some (r, s') →
    predOK s.nodes k bef x →
    s'.nodes = s.nodes ∧ predOK s.nodes k bef r.1 ∧ succOK s.nodes k bef r.2.ref ∧
    r.2.mark = false ∧ linkOK s.nodes i r.1 r.2.ref := by
  intro fuel
  induction fuel with
  | zero => intro k bef i x s r s' h hx; simp [wspInner] at h
  | succ f IH =>
    intro k bef i x s r s' h hx
    obtain ⟨xi, rfl, hxb⟩ := hx
    simp only [wspInner, readNext, readKey, getNode, get_unmarked_ref, bump] at h
    rcases hq : ((s.nodes xi).next i).ref with _ | _ | vi <;> rw [hq] at h
    · simp at h
    · simp at h
    · simp only [] at h
      by_cases hstop : k < (s.nodes vi).k ∨ (bef = true ∧ (s.nodes vi).k = k)
      · rw [if_pos hstop, Option.some.injEq, Prod.mk.injEq] at h
        obtain ⟨hr, hs⟩ := h
        subst hr; subst hs
        refine ⟨rfl, ⟨xi, rfl, hxb⟩, ⟨vi, rfl, ?_⟩, rfl, ⟨xi, rfl, hq.symm⟩⟩
        rcases hstop with hlt | ⟨hb, heq⟩
        · cases bef <;> simp <;> omega
        · subst hb; simp [heq]
      · rw [if_neg hstop] at h
        push_neg at hstop
        have hx2 : predOK (bump (bump s)).nodes k bef (Ref.node vi) := by
          refine ⟨vi, rfl, Or.inr ?_⟩
          cases bef
          · simpa using hstop.1
          · have hne := hstop.2 rfl
            simp only [if_true]
            show (s.nodes vi).k < k
            have h1 : (s.nodes vi).k ≤ k := hstop.1
            omega
        exact IH k bef i (Ref.node vi) (bump (bump s)) r s' h hx2

theorem wspLevels_post : ∀ j fuel k bef x pa na s r s',
    wspLevels k bef fuel j x pa na s = some (r, s') →
    predOK s.nodes k bef x →
    s'.nodes = s.nodes ∧
    (∀ i, j ≤ i → r.2.1 i = pa i ∧ r.2.2 i = na i) ∧
    predOK s.nodes k bef r.1 ∧
    (∀ i, i < j →
      predOK s.nodes k bef (r.2.1 i) ∧ succOK s.nodes k bef (r.2.2 i) ∧
      linkOK s.nodes i (r.2.1 i) (r.2.2 i)) ∧
    (j = 0 → r.1 = x) ∧ (0 < j → r.1 = r.2.1 0) := by
  intro j
  induction j with
  | zero =>
    intro fuel k bef x pa na s r s' h hx
    simp only [wspLevels, Option.some.injEq, Prod.mk.injEq] at h
    obtain ⟨hr, hs⟩ := h
    subst hr; subst hs
    exact ⟨rfl, fun i _ => ⟨rfl, rfl⟩, hx, fun i hi => absurd hi (by omega),
           fun _ => rfl, fun h0 => absurd h0 (by omega)⟩
  | succ j IH =>
    intro fuel k bef x pa na s r s' h hx
    simp only [wspLevels] at h
    rcases hin : wspInner k bef j fuel x s with _ | ⟨⟨x1, xn⟩, s1⟩
    · rw [hin] at h; simp at h
    · rw [hin] at h
      simp only [] at h
      obtain ⟨hn1, hp1, hsucc1, hm1, hl1⟩ := wspInner_post fuel k bef j x s (x1, xn) s1 hin hx
      have hp1t : predOK s1.nodes k bef x1 := by rw [hn1]; exact hp1
      obtain ⟨hn2, huntouched, hpr, hlow, hz, hpos⟩ :=
        IH fuel k bef x1 (Function.update pa j x1) (Function.update na j xn.ref) s1 r s' h hp1t
      rw [hn1] at hn2
      refine ⟨hn2, ?_, ?_, ?_, ?_, ?_⟩
      · intro i hi
        obtain ⟨h1, h2⟩ := huntouched i (by omega)
        rw [h1, h2, Function.update_noteq (by omega), Function.update_noteq (by omega)]
        exact ⟨rfl, rfl⟩
      · rw [← hn1]; exact hpr
      · intro i hi
        rcases Nat.lt_or_ge i j with hij | hij
        · obtain ⟨a, b, c⟩ := hlow i hij
          rw [hn1] at a b c
          exact ⟨a, b, c⟩
        · have hieq : i = j := by omega
          subst hieq
          obtain ⟨h1, h2⟩ := huntouched i (le_refl i)
          rw [h1, h2, Function.update_same, Function.update_same]
          exact ⟨hp1, hsucc1, hl1⟩
      · intro h0; omega
      · intro _
        rcases Nat.eq_zero_or_pos j with hj | hj
        · subst hj
          rw [hz rfl, (huntouched 0 (le_refl 0)).1, Function.update_same]
        · exact hpos hj

/-!  Claim theorems. -/

/-- Claim C5 (amended): the two variants are the opposite of the
claim.  The insert variant (`bef = false`) advances while the unmarked
next key is `≤ key`, stopping at the first key `> key` (so `preds[i]`
is the head or has key `≤ key` and `succs[i]` has key `> key`); the
`bef = true` variant used by `remove` advances while the next key is
`< key`, stopping at the first key `≥ key`.  As claimed, each
`preds[i]` is the last node reached before the stop and `succs[i]` is
the unmarked target of `preds[i].next[i]`; the main return value is
`preds[0]`. -/
theorem wsp_spec (k : Nat) (bef : Bool) (fuel : Nat) (s : St)
    (r : Ref × (Nat → Ref) × (Nat → Ref)) (s' : St)
    (h : weak_search_predecessors k bef fuel s = some (r, s')) :
    s'.nodes = s.nodes ∧ r.1 = r.2.1 0 ∧
    ∀ i, i < NUM_LEVELS →
      predOK s.nodes k bef (r.2.1 i) ∧ succOK s.nodes k bef (r.2.2 i) ∧
      linkOK s.nodes i (r.2.1 i) (r.2.2 i) := by
  obtain ⟨hn, _, _, hlow, _, hpos⟩ :=
    wspLevels_post NUM_LEVELS fuel k bef (.node 0) (fun _ => .null) (fun _ => .null)
      s r s' h ⟨0, rfl, Or.inl rfl⟩
  exact ⟨hn, hpos (by decide), hlow⟩

/-- Witness for `wsp_spec`: the `bef = true` search for key 5 on the
one-element queue `q5` stops with predecessor `head` and successor the
node with key 5. -/
theorem wsp_spec_witness :
    predOK q5.nodes 5 true (Ref.node 0) ∧ succOK q5.nodes 5 true (Ref.node 2) ∧
    linkOK q5.nodes 0 (Ref.node 0) (Ref.node 2) := by
  have h := wsp_spec 5 true 100 q5 _ _ rfl
  exact h.2.2 0 (by decide)

/-- In the bottom-level traversal of `set_removemin`, the single
fetch-and-add marks the forward pointer of the node *preceding* the
victim: there is a node `y` whose `next[0]` held the unmarked pointer
`p` to the victim, and exactly that pointer gets its mark bit set; no
other node changes.  (The comment at prioq.c:408 says it explicitly:
"the marker is on the preceding pointer".) -/
theorem rmLoop_post : ∀ fuel x offset s p n s',
    rmLoop fuel x offset s = some (.inr (p, n), s') →
    ∃ y, (s.nodes y).next 0 = p ∧ p.mark = false ∧
         (s'.nodes y).next 0 = { p with mark := true } ∧
         ∀ z, z ≠ y → s'.nodes z = s.nodes z := by
  intro fuel
  induction fuel with
  | zero => intro x offset s p n s' h; simp [rmLoop] at h
  | succ f IH =>
    intro x offset s p n s' h
    rcases x with _ | _ | xi
    · simp [rmLoop, readNext, getNode] at h
    · simp [rmLoop, readNext, getNode] at h
    · simp only [rmLoop, readNext, getNode, get_unmarked_ref, is_marked_ref, faa0, bump,
                 setNext] at h
      by_cases hEnd : (s.nodes xi).next 0 = ⟨.END, false⟩
      · rw [if_pos hEnd] at h; simp at h
      · rw [if_neg hEnd] at h
        by_cases hm : ((s.nodes xi).next 0).mark
        · rw [if_pos hm] at h
          simp only [if_pos hm] at h
          have := IH ((s.nodes xi).next 0).ref (offset + 1) _ p n s' h
          exact this
        · rw [if_neg hm] at h
          simp only [if_neg hm] at h
          rw [Option.some.injEq, Prod.mk.injEq] at h
          obtain ⟨h1, hs⟩ := h
          rw [Sum.inr.injEq, Prod.mk.injEq] at h1
          obtain ⟨hp, hn⟩ := h1
          subst hp; subst hs
          refine ⟨xi, rfl, Bool.eq_false_iff.mpr hm, ?_, ?_⟩
          · simp [Function.update_same]
          · intro z hz
            simp [Function.update_noteq hz]

/-- Claim C2 (amended): `set_remove(key)` positions at the **last node
before** the first key `≥ key` (the head, or a node with key `< key`),
fetch-ors the mark onto **that predecessor's** `next[0]` — whose
unmarked target is the first node with key `≥ key`, i.e. the node with
key `key` exactly when the key is present (when absent, a node with a
larger key gets deleted instead of a not-found return) — and returns
`NULL` if the word was already marked, otherwise the old pointer word
(a pointer to the victim node, not the stored value). -/
theorem set_remove_spec (key fuel : Nat) (s : St) (r : Option Ptr) (s' : St)
    (h : set_remove key fuel s = some (r, s')) :
    ∃ yi, predOK s.nodes key true (.node yi) ∧
          succOK s.nodes key true ((s.nodes yi).next 0).ref ∧
          (s'.nodes yi).next 0 = { (s.nodes yi).next 0 with mark := true } ∧
          (∀ z, z ≠ yi → s'.nodes z = s.nodes z) ∧
          r = (if ((s.nodes yi).next 0).mark then none
               else some ((s.nodes yi).next 0)) := by
  unfold set_remove at h
  rcases hw : weak_search_predecessors key true fuel s with _ | ⟨⟨x, pa, na⟩, s1⟩
  · rw [hw] at h; simp at h
  · rw [hw] at h
    simp only [] at h
    obtain ⟨hn1, hx0, hprops⟩ := wsp_spec key true fuel s (x, pa, na) s1 hw
    obtain ⟨hpr0, hsu0, hli0⟩ := hprops 0 (by decide)
    simp only [] at hpr0 hsu0 hli0 hx0
    obtain ⟨xi, hxeq, hbound⟩ := hpr0
    obtain ⟨ri, hri, hna⟩ := hli0
    have hrx : ri = xi := by
      rw [hxeq] at hri
      exact (Ref.node.inj hri).symm
    subst hrx
    rw [hxeq] at hx0
    rw [hx0] at h
    simp only [fao0, bump, setNext, is_marked_ref] at h
    rw [hn1] at h
    by_cases hm : ((s.nodes ri).next 0).mark = true
    · rw [if_pos hm, Option.some.injEq, Prod.mk.injEq] at h
      obtain ⟨hr, hs⟩ := h
      subst hr; subst hs
      refine ⟨ri, ⟨ri, rfl, hbound⟩, ?_, ?_, ?_, ?_⟩
      · rw [← hna]; exact hsu0
      · simp [Function.update_same]
      · intro z hz; simp [Function.update_noteq hz]
      · rw [if_pos hm]
    · rw [if_neg hm, Option.some.injEq, Prod.mk.injEq] at h
      obtain ⟨hr, hs⟩ := h
      subst hr; subst hs
      refine ⟨ri, ⟨ri, rfl, hbound⟩, ?_, ?_, ?_, ?_⟩
      · rw [← hna]; exact hsu0
      · simp [Function.update_same]
      · intro z hz; simp [Function.update_noteq hz]
      · rw [if_neg hm]

/-- The run of `set_remove(5)` on the one-element queue `q5`. -/
def q5removeRun : Option Ptr × St := (set_remove 5 100 q5).getD (none, q5)

/-- Witness for `set_remove_spec` at the concrete present key 5 on
`q5`. -/
theorem set_remove_spec_witness :
    ∃ yi, predOK q5.nodes 5 true (.node yi) ∧
          succOK q5.nodes 5 true ((q5.nodes yi).next 0).ref ∧
          (q5removeRun.2.nodes yi).next 0 = { (q5.nodes yi).next 0 with mark := true } ∧
          (∀ z, z ≠ yi → q5removeRun.2.nodes z = q5.nodes z) ∧
          q5removeRun.1 = (if ((q5.nodes yi).next 0).mark then none
                           else some ((q5.nodes yi).next 0)) :=
  set_remove_spec 5 100 q5 q5removeRun.1 q5removeRun.2 rfl

/-- Claim C1 (amended): for every deletion — the marking loop of
`delete_min` and `set_remove` alike — the logical-deletion mark is set
on the `next[0]` of the node **preceding** the victim (the pointer
*into* the victim), never on the victim's own `next[0]`: the victim's
node is untouched whenever it is distinct from the marked predecessor.
Equivalently, a node is logically deleted iff the bottom-level pointer
into it carries the mark bit. -/
theorem mark_on_incoming_pointer :
    (∀ fuel x offset s p n s', rmLoop fuel x offset s = some (.inr (p, n), s') →
       ∃ y, (s.nodes y).next 0 = p ∧ p.mark = false ∧
            (s'.nodes y).next 0 = { p with mark := true } ∧
            ∀ z, z ≠ y → s'.nodes z = s.nodes z) ∧
    (∀ key fuel s r s', set_remove key fuel s = some (r, s') →
       ∃ y, (s'.nodes y).next 0 = { (s.nodes y).next 0 with mark := true } ∧
            ∀ z, z ≠ y → s'.nodes z = s.nodes z) := by
  refine ⟨rmLoop_post, fun key fuel s r s' h => ?_⟩
  obtain ⟨yi, _, _, hmark, hun, _⟩ := set_remove_spec key fuel s r s' h
  exact ⟨yi, hmark, hun⟩

/-- The bottom-level traversal of `set_removemin` run on `q5`. -/
def q5rmLoopRun : Sum Nat (Ptr × Nat) × St := (rmLoop 100 (.node 0) 0 q5).getD (.inl 0, q5)

/-- Witness for `mark_on_incoming_pointer` on the one-element queue
`q5`: the marked pointer is the head's pointer into the victim. -/
theorem mark_on_incoming_pointer_witness :
    ∃ y, (q5.nodes y).next 0 = (⟨.node 2, false⟩ : Ptr) ∧
         (⟨.node 2, false⟩ : Ptr).mark = false ∧
         (q5rmLoopRun.2.nodes y).next 0 = (⟨.node 2, true⟩ : Ptr) ∧
         ∀ z, z ≠ y → q5rmLoopRun.2.nodes z = q5.nodes z :=
  mark_on_incoming_pointer.1 100 (.node 0) 0 q5 ⟨.node 2, false⟩ 1 q5rmLoopRun.2 rfl

/-- Claim C4: starting from a freshly allocated empty queue, the
sequential run `insert(5)`, `insert(3)`, `insert(7)` followed by four
`delete_min` calls returns 3, then 5, then 7, then the empty result
(`set_removemin` signals emptiness by returning the tail sentinel key
`SENTINEL_KEYMAX`, spec sections 4.4 and 7).  Verified for three RNG
streams, giving the inserted nodes levels (1,1,1), (4,2,3) and
(32,1,17). -/
theorem seq_scenario_keys :
    seqRunKeys q0 = some [3, 5, 7, SENTINEL_KEYMAX] ∧
    seqRunKeys (set_alloc 32 NUM_LEVELS mixedRands) = some [3, 5, 7, SENTINEL_KEYMAX] ∧
    seqRunKeys (set_alloc 32 NUM_LEVELS tallRands) = some [3, 5, 7, SENTINEL_KEYMAX] :=
  ⟨by decide, by decide, by decide⟩

/-- Claim C1, counterexample: on the queue holding the single key 5
(node 2), `set_removemin` returns 5 — so node 2 is the victim and is
logically deleted — yet the victim's own `next[0]` does **not** carry
the mark bit; the mark was placed on the predecessor's (the head's)
pointer into the victim.  This refutes "the mark is set on the outgoing
`next[0]` of the victim itself, never on the predecessor's pointer" and
the reading "a node is logically deleted iff its own `next[0]` carries
the mark bit". -/
theorem mark_location_claim_cex :
    (set_removemin 100 q5).map
        (fun p => (p.1, ((p.2.nodes 2).next 0).mark, (p.2.nodes 0).next 0))
      = some (5, false, ⟨.node 2, true⟩) := by decide

/-- Claim C2, counterexample: on the queue holding only key 5 with
value 99, `set_remove(3)` — key 3 absent — does **not** return
not-found: it fetch-ors the head's `next[0]` (the predecessor's
pointer, logically deleting the unrelated node with key 5) and returns
the old pointer word (the node pointer, not the stored value 99). -/
theorem set_remove_claim_cex :
    (set_remove 3 100 q5).map
        (fun p => (p.1, ((p.2.nodes 2).next 0).mark, ((p.2.nodes 0).next 0).mark))
      = some (some ⟨.node 2, false⟩, false, true) := by decide

/-- Claim C5, counterexample: on the queue holding the single key 5
(node 2), the insert variant (`bef = false`) of
`weak_search_predecessors(5)` advances **past** the node whose key
equals 5 (returning it as `preds[0]`, with the tail as `succs[0]`),
while the `bef = true` variant stops before it.  The claim asserts the
opposite: that `bef = false` stops at the first key `≥ 5` (which would
make `preds[0]` the head) and that `bef = true` advances while the key
is `≤ 5`. -/
theorem wsp_variant_claim_cex :
    ((weak_search_predecessors 5 false 100 q5).map
        (fun p => (p.1.1, p.1.2.1 0, p.1.2.2 0)) = some (.node 2, .node 2, .node 1))
    ∧ ((weak_search_predecessors 5 true 100 q5).map
        (fun p => (p.1.1, p.1.2.1 0, p.1.2.2 0)) = some (.node 0, .node 0, .node 2))
    ∧ (q5.nodes 2).k = 5 :=
  ⟨by decide, by decide, by decide⟩

/-- Claim C3, counterexample: `set_removemin` on a freshly allocated
(empty) queue **does** mark a pointer: it fetch-adds the head's
`next[0]`, logically deleting the tail sentinel, while returning
`SENTINEL_KEYMAX`.  This refutes "it does not mark any pointer". -/
theorem removemin_empty_claim_cex :
    (set_removemin 100 q0).map (fun p => (p.1, (p.2.nodes 0).next 0))
      = some (SENTINEL_KEYMAX, ⟨.node 1, true⟩) := by decide

/-- Claim C3 (amended): for every `max_offset`, `max_level` and RNG
stream, `set_removemin` on a freshly allocated queue returns normally
(no error) with the empty-sentinel key `SENTINEL_KEYMAX` — not a
user-visible key, since user keys never collide with the sentinels —
but in doing so it marks the head's `next[0]` (logically deleting the
tail sentinel); the tail's own forward pointer is untouched and no
head-swing cleanup is attempted. -/
theorem removemin_empty_spec (mo ml : Nat) (rands : Nat → Nat) :
    (set_removemin 1 (set_alloc mo ml rands)).map
        (fun p => (p.1, (p.2.nodes 0).next 0, (p.2.nodes 1).next 0, p.2.inCrit))
      = some (SENTINEL_KEYMAX, ⟨.node 1, true⟩, ⟨.END, false⟩, false) := by
  simp [set_removemin, set_alloc, rmLoop, rmFinish, rmCleanup, readNext, readKey, readVal,
        getNode, bump, faa0, fao0, setNext, critical_enter, critical_exit, headNode, tailNode,
        get_unmarked_ref, get_marked_ref, is_marked_ref, SENTINEL_KEYMAX, SENTINEL_KEYMIN,
        NUM_LEVELS, Function.update]

/-!  Inversion lemmas for the primitive shared-memory operations, and
preservation lemmas for the head-swing cleanup. -/

@[simp] theorem bump_nodes (s : St) : (bump s).nodes = s.nodes := rfl

@[simp] theorem bump_maxOffset (s : St) : (bump s).maxOffset = s.maxOffset := rfl

@[simp] theorem bump_old_offset (s : St) : (bump s).old_offset = s.old_offset := rfl

@[simp] theorem bump_old_obs_hp (s : St) : (bump s).old_obs_hp = s.old_obs_hp := rfl

@[simp] theorem bump_inCrit (s : St) : (bump s).inCrit = s.inCrit := rfl

@[simp] theorem setNext_maxOffset (s : St) (id i : Nat) (p : Ptr) :
    (setNext s id i p).maxOffset = s.maxOffset := rfl

theorem readNext_some : ∀ {x : Ref} {i : Nat} {s : St} {p : Ptr} {s1 : St},
    readNext x i s = some (p, s1) →
    s1.nodes = s.nodes ∧ ∃ xi, x = .node xi ∧ p = (s.nodes xi).next i := by
  intro x i s p s1 h
  rcases x with _ | _ | xi <;> simp [readNext, getNode, bump] at h
  exact ⟨h.2 ▸ rfl, xi, rfl, h.1.symm⟩

theorem caspo_some : ∀ {x : Ref} {i : Nat} {old new : Ptr} {s : St} {p : Ptr} {s1 : St},
    caspo x i old new s = some (p, s1) →
    ∃ xi, x = .node xi ∧ p = (s.nodes xi).next i ∧
      s1.nodes = (if p = old then (setNext s xi i new).nodes else s.nodes) := by
  intro x i old new s p s1 h
  rcases x with _ | _ | xi <;> simp only [caspo] at h
  · exact absurd h (by simp)
  · exact absurd h (by simp)
  · by_cases hc : (s.nodes xi).next i = old
    · rw [if_pos hc] at h
      simp only [Option.some.injEq, Prod.mk.injEq] at h
      refine ⟨xi, rfl, h.1.symm, ?_⟩
      rw [if_pos (h.1.symm ▸ hc), ← h.2]
      rfl
    · rw [if_neg hc] at h
      simp only [Option.some.injEq, Prod.mk.injEq] at h
      refine ⟨xi, rfl, h.1.symm, ?_⟩
      rw [if_neg (h.1.symm ▸ hc), ← h.2]
      rfl

theorem free_node_some : ∀ {x : Ref} {s : St} {r : Unit} {s1 : St},
    free_node x s = some (r, s1) → s1.nodes = s.nodes := by
  intro x s r s1 h
  rcases x with _ | _ | xi <;> simp [free_node, readLevel, getNode, bump] at h
  exact h ▸ rfl

theorem wseInner_nodes : ∀ fuel i x lvl s r s',
    wseInner i fuel x lvl s = some (r, s') → s'.nodes = s.nodes := by
  intro fuel
  induction fuel with
  | zero => intro i x lvl s r s' h; simp [wseInner] at h
  | succ f IH =>
    intro i x lvl s r s' h
    simp only [wseInner] at h
    rcases h1 : readNext x i s with _ | ⟨xn, s1⟩
    · rw [h1] at h; simp at h
    · rw [h1] at h
      simp only [] at h
      obtain ⟨hs1, _, _, _⟩ := readNext_some h1
      by_cases hm : xn.mark = true
      · rw [if_pos hm] at h; simp at h
      · rw [if_neg hm] at h
        rcases h2 : readNext xn.ref 0 s1 with _ | ⟨p, s2⟩
        · rw [h2] at h; simp at h
        · rw [h2] at h
          simp only [is_marked_ref] at h
          obtain ⟨hs2, _, _, _⟩ := readNext_some h2
          by_cases hp : p.mark = false
          · rw [if_pos hp, Option.some.injEq, Prod.mk.injEq] at h
            rw [← h.2, hs2, hs1]
          · rw [if_neg hp] at h
            have := IH i xn.ref _ s2 r s' h
            rw [this, hs2, hs1]

theorem wseLevels_nodes : ∀ j fuel x pa lvl s r s',
    wseLevels fuel j x pa lvl s = some (r, s') → s'.nodes = s.nodes := by
  intro j
  induction j with
  | zero =>
    intro fuel x pa lvl s r s' h
    simp only [wseLevels, Option.some.injEq, Prod.mk.injEq] at h
    exact h.2 ▸ rfl
  | succ j IH =>
    intro fuel x pa lvl s r s' h
    simp only [wseLevels] at h
    rcases hin : wseInner (j+1) fuel x lvl s with _ | ⟨⟨x1, lvl1⟩, s1⟩
    · rw [hin] at h; simp at h
    · rw [hin] at h
      simp only [] at h
      rw [IH fuel x1 _ lvl1 s1 r s' h, wseInner_nodes fuel (j+1) x lvl s (x1, lvl1) s1 hin]

theorem weak_search_end_nodes : ∀ {toplvl : Option Nat} {fuel : Nat} {pa : Nat → Ref}
    {s : St} {r : (Nat → Ref) × Nat} {s' : St},
    weak_search_end toplvl fuel pa s = some (r, s') → s'.nodes = s.nodes := by
  intro toplvl fuel pa s r s' h
  unfold weak_search_end at h
  exact wseLevels_nodes _ fuel _ pa _ s r s' h

theorem upperCasLoop_next0 : ∀ fuel i wfuel pa next s r s', 0 < i →
    upperCasLoop i wfuel fuel pa next s = some (r, s') →
    ∀ z, (s'.nodes z).next 0 = (s.nodes z).next 0 := by
  intro fuel
  induction fuel with
  | zero => intro i wfuel pa next s r s' hi h; simp [upperCasLoop] at h
  | succ f IH =>
    intro i wfuel pa next s r s' hi h
    simp only [upperCasLoop] at h
    rcases h1 : readNext (pa i) i s with _ | ⟨pn, s1⟩
    · rw [h1] at h; simp at h
    · rw [h1] at h
      simp only [] at h
      obtain ⟨hs1, _, _, _⟩ := readNext_some h1
      rcases h2 : caspo (.node 0) i next pn s1 with _ | ⟨old, s2⟩
      · rw [h2] at h; simp at h
      · rw [h2] at h
        simp only [] at h
        obtain ⟨zi, hzi, hold, hs2⟩ := caspo_some h2
        have hz0 : zi = 0 := (Ref.node.inj hzi).symm
        subst hz0
        have hs2next0 : ∀ z, (s2.nodes z).next 0 = (s.nodes z).next 0 := by
          intro z
          rw [hs2]
          by_cases hc : old = next
          · rw [if_pos hc]
            by_cases hz : z = 0
            · subst hz
              simp [setNext, Function.update_same, hs1,
                    Function.update_noteq (by omega : (0:Nat) ≠ i)]
            · simp [setNext, Function.update_noteq hz, hs1]
          · rw [if_neg hc, hs1]
        by_cases hc : old = next
        · rw [if_pos hc, Option.some.injEq, Prod.mk.injEq] at h
          rw [← h.2]
          exact hs2next0
        · rw [if_neg hc] at h
          rcases h3 : weak_search_end (some i) wfuel pa s2 with _ | ⟨⟨pa2, l2⟩, s3⟩
          · rw [h3] at h; simp at h
          · rw [h3] at h
            simp only [] at h
            have hs3 : s3.nodes = s2.nodes := weak_search_end_nodes h3
            rcases h4 : readNext (.node 0) i s3 with _ | ⟨nx2, s4⟩
            · rw [h4] at h; simp at h
            · rw [h4] at h
              simp only [] at h
              obtain ⟨hs4, _, _, _⟩ := readNext_some h4
              intro z
              have hrec := IH i wfuel pa2 nx2 s4 r s' hi h
              rw [hrec z, hs4, hs3]
              exact hs2next0 z

theorem upperLevels_next0 : ∀ lvl wfuel pa s r s',
    upperLevels wfuel lvl pa s = some (r, s') →
    ∀ z, (s'.nodes z).next 0 = (s.nodes z).next 0 := by
  intro lvl
  induction lvl with
  | zero =>
    intro wfuel pa s r s' h
    simp only [upperLevels, Option.some.injEq, Prod.mk.injEq] at h
    rw [← h.2]
    exact fun z => rfl
  | succ l IH =>
    intro wfuel pa s r s' h
    simp only [upperLevels] at h
    rcases h1 : readNext (.node 0) (l+1) s with _ | ⟨next, s1⟩
    · rw [h1] at h; simp at h
    · rw [h1] at h
      simp only [] at h
      obtain ⟨hs1, _, _, _⟩ := readNext_some h1
      rcases h2 : upperCasLoop (l+1) wfuel wfuel pa next s1 with _ | ⟨pa2, s2⟩
      · rw [h2] at h; simp at h
      · rw [h2] at h
        simp only [] at h
        intro z
        rw [IH wfuel pa2 s2 r s' h z,
            upperCasLoop_next0 wfuel (l+1) wfuel pa next s1 pa2 s2 (by omega) h2 z, hs1]

theorem freeLoop_nodes : ∀ fuel xEnd cur s r s',
    freeLoop xEnd fuel cur s = some (r, s') → s'.nodes = s.nodes := by
  intro fuel
  induction fuel with
  | zero => intro xEnd cur s r s' h; simp [freeLoop] at h
  | succ f IH =>
    intro xEnd cur s r s' h
    simp only [freeLoop] at h
    by_cases hc : cur = xEnd
    · rw [if_pos hc, Option.some.injEq, Prod.mk.injEq] at h
      exact h.2 ▸ rfl
    · rw [if_neg hc] at h
      rcases h1 : free_node cur s with _ | ⟨u, s1⟩
      · rw [h1] at h; simp at h
      · rw [h1] at h
        simp only [] at h
        rcases h2 : readNext cur 0 s1 with _ | ⟨nxt, s2⟩
        · rw [h2] at h; simp at h
        · rw [h2] at h
          simp only [] at h
          rw [IH xEnd _ s2 r s' h, (readNext_some h2).1, free_node_some h1]

/-- A head-swing whose opening CAS loses (the bottom head pointer no
longer equals the observed `obs_hp`) abandons cleanup without touching
any node. -/
theorem rmCleanup_loss : ∀ {xv obs : Ptr} {fuel : Nat} {s : St} {r : Unit} {s' : St},
    rmCleanup xv obs fuel s = some (r, s') →
    (s.nodes 0).next 0 ≠ obs → s'.nodes = s.nodes := by
  intro xv obs fuel s r s' h hne
  simp only [rmCleanup, caspo] at h
  rw [if_neg hne] at h
  simp only [] at h
  rw [if_neg hne, Option.some.injEq, Prod.mk.injEq] at h
  exact h.2 ▸ rfl

/-- A head-swing whose opening CAS wins leaves the bottom head pointer
equal to the marked victim pointer: the later phases only CAS the head's
upper-level pointers and free detached nodes. -/
theorem rmCleanup_win : ∀ {xv obs : Ptr} {fuel : Nat} {s : St} {r : Unit} {s' : St},
    rmCleanup xv obs fuel s = some (r, s') →
    (s.nodes 0).next 0 = obs →
    (s'.nodes 0).next 0 = get_marked_ref xv := by
  intro xv obs fuel s r s' h heq
  simp only [rmCleanup, caspo] at h
  rw [if_pos heq] at h
  simp only [] at h
  rw [if_pos heq] at h
  have hs1 : ((bump (setNext s 0 0 (get_marked_ref xv))).nodes 0).next 0 = get_marked_ref xv := by
    simp [setNext, Function.update_same]
  rcases h2 : weak_search_end none fuel (fun _ => .null)
      (bump (setNext s 0 0 (get_marked_ref xv))) with _ | ⟨⟨pa, lvl⟩, s2⟩
  · rw [h2] at h; simp at h
  · rw [h2] at h
    simp only [] at h
    have hs2 : s2.nodes = (bump (setNext s 0 0 (get_marked_ref xv))).nodes :=
      weak_search_end_nodes h2
    rcases h3 : readNext (.node 0) 0 s2 with _ | ⟨h0, s3⟩
    · rw [h3] at h; simp at h
    · rw [h3] at h
      simp only [] at h
      obtain ⟨hs3, xi3, hx3, hval⟩ := readNext_some h3
      have hxi3 : xi3 = 0 := (Ref.node.inj hx3).symm
      subst hxi3
      have hh0 : h0 = get_marked_ref xv := by
        rw [hval, hs2]
        exact hs1
      rw [if_neg (by rw [hh0]; simp)] at h
      rcases h4 : upperLevels fuel lvl pa s3 with _ | ⟨u, s4⟩
      · rw [h4] at h; simp at h
      · rw [h4] at h
        simp only [] at h
        have hfl := freeLoop_nodes fuel _ _ s4 r s' h
        have hup := upperLevels_next0 lvl fuel pa s3 u s4 h4 0
        rw [hfl, hup, hs3, hs2]
        exact hs1

/-- If the cleanup guard fails (`old_offset ≤ max_offset`, or the head
pointer moved), the tail of `set_removemin` changes no node and just
returns the key. -/
theorem rmFinish_skip : ∀ {k : Nat} {xv : Ptr} {fuel : Nat} {s : St} {r : Nat} {s' : St},
    rmFinish k xv fuel s = some (r, s') →
    (s.old_offset ≤ s.maxOffset ∨ (s.nodes 0).next 0 ≠ s.old_obs_hp) →
    s'.nodes = s.nodes ∧ r = k := by
  intro k xv fuel s r s' h hg
  simp only [rmFinish, readNext, getNode, bump_old_offset, bump_maxOffset, critical_exit] at h
  rw [if_pos hg, Option.some.injEq, Prod.mk.injEq] at h
  exact ⟨h.2 ▸ rfl, h.1.symm⟩

/-- If the cleanup guard holds (`old_offset > max_offset` and the head
pointer still equals the cached `old_obs_hp`), the head swing proceeds
and its opening CAS leaves `head.next[0] = marked(x)`. -/
theorem rmFinish_swing : ∀ {k : Nat} {xv : Ptr} {fuel : Nat} {s : St} {r : Nat} {s' : St},
    rmFinish k xv fuel s = some (r, s') →
    s.maxOffset < s.old_offset →
    (s.nodes 0).next 0 = s.old_obs_hp →
    (s'.nodes 0).next 0 = get_marked_ref xv ∧ r = k := by
  intro k xv fuel s r s' h hlt heq
  simp only [rmFinish, readNext, getNode, bump_old_offset, bump_maxOffset, critical_exit] at h
  rw [if_neg (by push_neg; exact ⟨by omega, heq⟩)] at h
  rcases h2 : rmCleanup xv s.old_obs_hp fuel (bump s) with _ | ⟨u, s2⟩
  · rw [h2] at h; simp at h
  · rw [h2] at h
    simp only [] at h
    rw [Option.some.injEq, Prod.mk.injEq] at h
    have hwin := rmCleanup_win h2 heq
    refine ⟨?_, h.1.symm⟩
    rw [← h.2]
    exact hwin

/-- Claim C6: after the traversal, `set_removemin` attempts the
head-swing cleanup exactly when the accumulated `old_offset` strictly
exceeds `max_offset` **and** `head.next[0]` still equals the cached
`old_obs_hp` (the guard at prioq.c:431 skips otherwise, changing no
node); an attempted cleanup begins with the single CAS of
`head.next[0]` from `old_obs_hp` to `marked(x)` (run sequentially when
the guard holds, the CAS wins and `head.next[0] = marked(x)` persists
through the rest of the cleanup); a cleanup whose opening CAS fails
abandons without modifying any node. -/
theorem cleanup_guard_spec :
    (∀ k xv fuel s r s', rmFinish k xv fuel s = some (r, s') →
       (s.old_offset ≤ s.maxOffset ∨ (s.nodes 0).next 0 ≠ s.old_obs_hp) →
       s'.nodes = s.nodes ∧ r = k) ∧
    (∀ k xv fuel s r s', rmFinish k xv fuel s = some (r, s') →
       s.maxOffset < s.old_offset → (s.nodes 0).next 0 = s.old_obs_hp →
       (s'.nodes 0).next 0 = get_marked_ref xv ∧ r = k) ∧
    (∀ xv obs fuel s r s', rmCleanup xv obs fuel s = some (r, s') →
       (s.nodes 0).next 0 ≠ obs → s'.nodes = s.nodes) :=
  ⟨fun _ _ _ _ _ _ h hg => rmFinish_skip h hg,
   fun _ _ _ _ _ _ h h1 h2 => rmFinish_swing h h1 h2,
   fun _ _ _ _ _ _ h hne => rmCleanup_loss h hne⟩

/-- A thread-local state on `q5` that crosses the cleanup threshold:
`max_offset = 0 < old_offset = 1` with a cache matching the current
head pointer. -/
def qB : St := { q5 with maxOffset := 0, old_offset := 1, old_obs_hp := ⟨.node 2, false⟩ }

def q5finishRun : Nat × St := (rmFinish 5 ⟨.node 2, false⟩ 100 q5).getD (0, q5)

def qBfinishRun : Nat × St := (rmFinish 5 ⟨.node 2, false⟩ 100 qB).getD (0, qB)

def q5cleanupRun : Unit × St :=
  (rmCleanup ⟨.node 2, false⟩ ⟨.node 1, false⟩ 100 q5).getD ((), q5)

/-- Witness for `cleanup_guard_spec`: the guard-fail, guard-pass and
CAS-loss cases at concrete states. -/
theorem cleanup_guard_spec_witness :
    (q5finishRun.2.nodes = q5.nodes ∧ q5finishRun.1 = 5) ∧
    ((qBfinishRun.2.nodes 0).next 0 = get_marked_ref ⟨.node 2, false⟩ ∧ qBfinishRun.1 = 5) ∧
    q5cleanupRun.2.nodes = q5.nodes :=
  ⟨cleanup_guard_spec.1 5 ⟨.node 2, false⟩ 100 q5 q5finishRun.1 q5finishRun.2 rfl
     (Or.inl (by decide)),
   cleanup_guard_spec.2.1 5 ⟨.node 2, false⟩ 100 qB qBfinishRun.1 qBfinishRun.2 rfl
     (by decide) (by decide),
   cleanup_guard_spec.2.2 ⟨.node 2, false⟩ ⟨.node 1, false⟩ 100 q5 q5cleanupRun.1
     q5cleanupRun.2 rfl (by decide)⟩

/-- Claim C7, counterexample: the marking step as implemented
(`__sync_fetch_and_add(..., 1)`) is **not** idempotent: applied twice
to the aligned, initially unmarked pointer word 64 it leaves the word
66, whose mark bit is clear (and which points elsewhere), not the
marked word. -/
theorem faa_twice_claim_cex :
    word_is_marked (mark_faa (mark_faa 64).2).2 = false ∧
    (mark_faa (mark_faa 64).2).2 = 66 := ⟨by decide, by decide⟩

/-- Claim C7 (amended): for the **specified** fetch-or-1 the claim
holds: applied twice to an initially unmarked 64-bit word, the word
ends (and stays) marked and exactly one of the two applications
receives the unmarked (winner) return value.  A **single**
fetch-and-add-1 agrees with fetch-or-1 on an unmarked word (this is
what the code relies on), but a second fetch-and-add clears the mark
bit again, so the add is equivalent to the or only while the word is
unmarked. -/
theorem marking_fao_idempotent (w : Nat) (hw : w < 2 ^ 64)
    (he : word_is_marked w = false) :
    (mark_fao (mark_fao w).2).2 = (mark_fao w).2 ∧
    word_is_marked (mark_fao w).2 = true ∧
    word_is_marked (mark_fao w).1 = false ∧
    word_is_marked (mark_fao (mark_fao w).2).1 = true ∧
    (mark_faa w).2 = (mark_fao w).2 ∧
    (mark_faa w).1 = (mark_fao w).1 ∧
    word_is_marked (mark_faa (mark_faa w).2).2 = false := by
  have h0 : w % 2 = 0 := by
    by_contra hne
    simp [word_is_marked, Nat.mod_two_eq_zero_or_one, show w % 2 = 1 by omega] at he
  have h1 : w ||| 1 = w + 1 := by rw [or_one_cases]; omega
  have h2 : (w + 1) ||| 1 = w + 1 := by rw [or_one_cases]; omega
  have h3 : (w + 1) % 2 ^ 64 = w + 1 := Nat.mod_eq_of_lt (by omega)
  refine ⟨?_, ?_, ?_, ?_, ?_, ?_, ?_⟩ <;>
    simp [mark_fao, mark_faa, word_is_marked, h1, h2, h3] <;> omega

/-- Witness for `marking_fao_idempotent` at the concrete aligned word
64. -/
theorem marking_fao_idempotent_witness :
    (64 < 2 ^ 64 ∧ word_is_marked 64 = false) ∧
    ((mark_fao (mark_fao 64).2).2 = (mark_fao 64).2 ∧
     word_is_marked (mark_fao 64).2 = true ∧
     word_is_marked (mark_fao 64).1 = false ∧
     word_is_marked (mark_fao (mark_fao 64).2).1 = true ∧
     (mark_faa 64).2 = (mark_fao 64).2 ∧
     (mark_faa 64).1 = (mark_fao 64).1 ∧
     word_is_marked (mark_faa (mark_faa 64).2).2 = false) :=
  ⟨⟨by decide, by decide⟩, marking_fao_idempotent 64 (by decide) (by decide)⟩


/-!  Instrumentation: which operations run inside a critical section.
Claim C10 is settled through the access counters `total`/`unprot` of
`St`: every shared-memory primitive records one access, counted as
unprotected when `inCrit` is false. -/


/-- Counter invariant: `inCrit` is unchanged, the access counter only
grows, and an access is counted as unprotected exactly when it happens
outside a critical section. -/
def ctrInv (s s' : St) : Prop :=
  s'.inCrit = s.inCrit ∧ s.total ≤ s'.total ∧
  (s.inCrit = true → s'.unprot = s.unprot) ∧
  (s.inCrit = false → s'.unprot + s.total = s.unprot + s'.total)

theorem ctrInv_refl (s : St) : ctrInv s s := ⟨rfl, le_refl _, fun _ => rfl, fun _ => rfl⟩

theorem ctrInv_trans {s s1 s2 : St} (h1 : ctrInv s s1) (h2 : ctrInv s1 s2) : ctrInv s s2 := by
  obtain ⟨a1, b1, c1, d1⟩ := h1
  obtain ⟨a2, b2, c2, d2⟩ := h2
  refine ⟨a2.trans a1, b1.trans b2, ?_, ?_⟩
  · intro hc
    rw [c2 (a1 ▸ hc), c1 hc]
  · intro hc
    have e1 := d1 hc
    have e2 := d2 (a1 ▸ hc)
    omega

theorem ctrInv_bump_eq {s t : St} (hc : t.inCrit = s.inCrit) (ht : t.total = s.total)
    (hu : t.unprot = s.unprot) : ctrInv s (bump t) := by
  unfold ctrInv bump
  simp only [hc, ht, hu]
  rcases hcc : s.inCrit <;> simp [hcc] <;> omega

theorem ctrInv_eq {s t : St} (hc : t.inCrit = s.inCrit) (ht : t.total = s.total)
    (hu : t.unprot = s.unprot) : ctrInv s t :=
  ⟨hc, ht ▸ le_refl _, fun _ => hu, fun _ => by omega⟩

theorem bump_total (s : St) : (bump s).total = s.total + 1 := rfl

theorem getNode_ctr : ∀ {x : Ref} {s : St} {n : Node} {s1 : St},
    getNode x s = some (n, s1) → ctrInv s s1 ∧ s.total < s1.total := by
  intro x s n s1 h
  rcases x with _ | _ | xi <;> simp [getNode] at h
  rw [← h.2]
  exact ⟨ctrInv_bump_eq rfl rfl rfl, by rw [bump_total]; omega⟩

theorem readNext_ctr : ∀ {x : Ref} {i : Nat} {s : St} {p : Ptr} {s1 : St},
    readNext x i s = some (p, s1) → ctrInv s s1 ∧ s.total < s1.total := by
  intro x i s p s1 h
  unfold readNext at h
  rcases hg : getNode x s with _ | ⟨n, s2⟩
  · rw [hg] at h; simp at h
  · rw [hg] at h
    simp only [Option.some.injEq, Prod.mk.injEq] at h
    exact h.2 ▸ getNode_ctr hg

theorem readKey_ctr : ∀ {x : Ref} {s : St} {p : Nat} {s1 : St},
    readKey x s = some (p, s1) → ctrInv s s1 ∧ s.total < s1.total := by
  intro x s p s1 h
  unfold readKey at h
  rcases hg : getNode x s with _ | ⟨n, s2⟩
  · rw [hg] at h; simp at h
  · rw [hg] at h
    simp only [Option.some.injEq, Prod.mk.injEq] at h
    exact h.2 ▸ getNode_ctr hg

theorem readVal_ctr : ∀ {x : Ref} {s : St} {p : Nat} {s1 : St},
    readVal x s = some (p, s1) → ctrInv s s1 ∧ s.total < s1.total := by
  intro x s p s1 h
  unfold readVal at h
  rcases hg : getNode x s with _ | ⟨n, s2⟩
  · rw [hg] at h; simp at h
  · rw [hg] at h
    simp only [Option.some.injEq, Prod.mk.injEq] at h
    exact h.2 ▸ getNode_ctr hg

theorem readLevel_ctr : ∀ {x : Ref} {s : St} {p : Nat} {s1 : St},
    readLevel x s = some (p, s1) → ctrInv s s1 ∧ s.total < s1.total := by
  intro x s p s1 h
  unfold readLevel at h
  rcases hg : getNode x s with _ | ⟨n, s2⟩
  · rw [hg] at h; simp at h
  · rw [hg] at h
    simp only [Option.some.injEq, Prod.mk.injEq] at h
    exact h.2 ▸ getNode_ctr hg

theorem writeNext_ctr : ∀ {x : Ref} {i : Nat} {p : Ptr} {s : St} {r : Unit} {s1 : St},
    writeNext x i p s = some (r, s1) → ctrInv s s1 := by
  intro x i p s r s1 h
  rcases x with _ | _ | xi <;> simp [writeNext] at h
  rw [← h]
  exact ctrInv_bump_eq rfl rfl rfl

theorem writeKey_ctr : ∀ {x : Ref} {k : Nat} {s : St} {r : Unit} {s1 : St},
    writeKey x k s = some (r, s1) → ctrInv s s1 := by
  intro x k s r s1 h
  rcases x with _ | _ | xi <;> simp [writeKey] at h
  rw [← h]
  exact ctrInv_bump_eq rfl rfl rfl

theorem writeVal_ctr : ∀ {x : Ref} {v : Nat} {s : St} {r : Unit} {s1 : St},
    writeVal x v s = some (r, s1) → ctrInv s s1 := by
  intro x v s r s1 h
  rcases x with _ | _ | xi <;> simp [writeVal] at h
  rw [← h]
  exact ctrInv_bump_eq rfl rfl rfl

theorem writeLevel_ctr : ∀ {x : Ref} {l : Nat} {s : St} {r : Unit} {s1 : St},
    writeLevel x l s = some (r, s1) → ctrInv s s1 := by
  intro x l s r s1 h
  rcases x with _ | _ | xi <;> simp [writeLevel] at h
  rw [← h]
  exact ctrInv_bump_eq rfl rfl rfl

theorem caspo_ctr : ∀ {x : Ref} {i : Nat} {old new : Ptr} {s : St} {p : Ptr} {s1 : St},
    caspo x i old new s = some (p, s1) → ctrInv s s1 := by
  intro x i old new s p s1 h
  rcases x with _ | _ | xi <;> simp only [caspo] at h
  · exact absurd h (by simp)
  · exact absurd h (by simp)
  · by_cases hc : (s.nodes xi).next i = old
    · rw [if_pos hc] at h
      simp only [Option.some.injEq, Prod.mk.injEq] at h
      rw [← h.2]
      exact ctrInv_bump_eq rfl rfl rfl
    · rw [if_neg hc] at h
      simp only [Option.some.injEq, Prod.mk.injEq] at h
      rw [← h.2]
      exact ctrInv_bump_eq rfl rfl rfl

theorem faa0_ctr : ∀ {x : Ref} {s : St} {p : Ptr} {s1 : St},
    faa0 x s = some (p, s1) → ctrInv s s1 := by
  intro x s p s1 h
  rcases x with _ | _ | xi <;> simp only [faa0] at h
  · exact absurd h (by simp)
  · exact absurd h (by simp)
  · by_cases hm : ((s.nodes xi).next 0).mark = true
    · rw [if_pos hm] at h; simp at h
    · rw [if_neg hm] at h
      simp only [Option.some.injEq, Prod.mk.injEq] at h
      rw [← h.2]
      exact ctrInv_bump_eq rfl rfl rfl

theorem fao0_ctr : ∀ {x : Ref} {s : St} {p : Ptr} {s1 : St},
    fao0 x s = some (p, s1) → ctrInv s s1 := by
  intro x s p s1 h
  rcases x with _ | _ | xi <;> simp only [fao0] at h
  · exact absurd h (by simp)
  · exact absurd h (by simp)
  · simp only [Option.some.injEq, Prod.mk.injEq] at h
    rw [← h.2]
    exact ctrInv_bump_eq rfl rfl rfl

theorem free_node_ctr : ∀ {x : Ref} {s : St} {r : Unit} {s1 : St},
    free_node x s = some (r, s1) → ctrInv s s1 := by
  intro x s r s1 h
  unfold free_node at h
  rcases hg : readLevel x s with _ | ⟨l, s2⟩
  · rw [hg] at h; simp at h
  · rw [hg] at h
    rcases x with _ | _ | xi <;> simp only [] at h
    · exact absurd h (by simp)
    · exact absurd h (by simp)
    · simp only [Option.some.injEq, Prod.mk.injEq] at h
      refine ctrInv_trans (readLevel_ctr hg).1 ?_
      rw [← h.2]
      exact ctrInv_eq rfl rfl rfl

theorem rand_next_ctr : ∀ {s : St} {r : Nat} {s1 : St},
    rand_next s = some (r, s1) → ctrInv s s1 := by
  intro s r s1 h
  simp only [rand_next, Option.some.injEq, Prod.mk.injEq] at h
  rw [← h.2]
  exact ctrInv_eq rfl rfl rfl

theorem gc_alloc_ctr : ∀ {s : St} {r : Nat} {s1 : St},
    gc_alloc s = some (r, s1) → ctrInv s s1 := by
  intro s r s1 h
  simp only [gc_alloc, Option.some.injEq, Prod.mk.injEq] at h
  rw [← h.2]
  exact ctrInv_eq rfl rfl rfl

theorem get_level_ctr : ∀ {s : St} {r : Nat} {s1 : St},
    get_level s = some (r, s1) → ctrInv s s1 := by
  intro s r s1 h
  unfold get_level at h
  rcases hg : rand_next s with _ | ⟨w, s2⟩
  · rw [hg] at h; simp at h
  · rw [hg] at h
    simp only [Option.some.injEq, Prod.mk.injEq] at h
    exact h.2 ▸ rand_next_ctr hg

theorem alloc_node_ctr : ∀ {s : St} {r : Nat} {s1 : St},
    alloc_node s = some (r, s1) → ctrInv s s1 := by
  intro s r s1 h
  unfold alloc_node at h
  rcases h1 : get_level s with _ | ⟨l, sa⟩
  · rw [h1] at h; simp at h
  · rw [h1] at h
    simp only [] at h
    rcases h2 : gc_alloc sa with _ | ⟨n, sb⟩
    · rw [h2] at h; simp at h
    · rw [h2] at h
      simp only [] at h
      rcases h3 : writeLevel (.node n) l sb with _ | ⟨u, sc⟩
      · rw [h3] at h; simp at h
      · rw [h3] at h
        simp only [Option.some.injEq, Prod.mk.injEq] at h
        exact h.2 ▸ ctrInv_trans (get_level_ctr h1)
          (ctrInv_trans (gc_alloc_ctr h2) (writeLevel_ctr h3))


theorem wspInner_ctr : ∀ fuel k bef i x s r s',
    wspInner k bef i fuel x s = some (r, s') → ctrInv s s' ∧ s.total < s'.total := by
  intro fuel
  induction fuel with
  | zero => intro k bef i x s r s' h; simp [wspInner] at h
  | succ f IH =>
    intro k bef i x s r s' h
    simp only [wspInner] at h
    rcases h1 : readNext x i s with _ | ⟨xn, s1⟩
    · rw [h1] at h; simp at h
    · rw [h1] at h
      simp only [] at h
      obtain ⟨hc1, hlt1⟩ := readNext_ctr h1
      rcases h2 : readKey (get_unmarked_ref xn).ref s1 with _ | ⟨xnk, s2⟩
      · rw [h2] at h; simp at h
      · rw [h2] at h
        simp only [] at h
        obtain ⟨hc2, hlt2⟩ := readKey_ctr h2
        by_cases hstop : k < xnk ∨ (bef = true ∧ xnk = k)
        · rw [if_pos hstop, Option.some.injEq, Prod.mk.injEq] at h
          rw [← h.2]
          exact ⟨ctrInv_trans hc1 hc2, by omega⟩
        · rw [if_neg hstop] at h
          obtain ⟨hc3, hlt3⟩ := IH k bef i (get_unmarked_ref xn).ref s2 r s' h
          exact ⟨ctrInv_trans hc1 (ctrInv_trans hc2 hc3), by omega⟩

theorem wspLevels_ctr : ∀ j fuel k bef x pa na s r s',
    wspLevels k bef fuel j x pa na s = some (r, s') →
    ctrInv s s' ∧ (0 < j → s.total < s'.total) := by
  intro j
  induction j with
  | zero =>
    intro fuel k bef x pa na s r s' h
    simp only [wspLevels, Option.some.injEq, Prod.mk.injEq] at h
    rw [← h.2]
    exact ⟨ctrInv_refl s, fun h0 => absurd h0 (by omega)⟩
  | succ j IH =>
    intro fuel k bef x pa na s r s' h
    simp only [wspLevels] at h
    rcases hin : wspInner k bef j fuel x s with _ | ⟨⟨x1, xn⟩, s1⟩
    · rw [hin] at h; simp at h
    · rw [hin] at h
      simp only [] at h
      obtain ⟨hc1, hlt1⟩ := wspInner_ctr fuel k bef j x s (x1, xn) s1 hin
      obtain ⟨hc2, _⟩ := IH fuel k bef x1 _ _ s1 r s' h
      exact ⟨ctrInv_trans hc1 hc2, fun _ => by have := hc2.2.1; omega⟩

theorem wsp_ctr : ∀ {k : Nat} {bef : Bool} {fuel : Nat} {s : St} {r} {s' : St},
    weak_search_predecessors k bef fuel s = some (r, s') →
    ctrInv s s' ∧ s.total < s'.total := by
  intro k bef fuel s r s' h
  unfold weak_search_predecessors at h
  obtain ⟨hc, hs⟩ := wspLevels_ctr NUM_LEVELS fuel k bef _ _ _ s r s' h
  exact ⟨hc, hs (by decide)⟩

theorem wshInner_ctr : ∀ fuel i x s r s',
    wshInner i fuel x s = some (r, s') → ctrInv s s' := by
  intro fuel
  induction fuel with
  | zero => intro i x s r s' h; simp [wshInner] at h
  | succ f IH =>
    intro i x s r s' h
    simp only [wshInner] at h
    rcases h1 : readNext x i s with _ | ⟨xn, s1⟩
    · rw [h1] at h; simp at h
    · rw [h1] at h
      simp only [] at h
      by_cases hEnd : get_unmarked_ref xn = (⟨.END, false⟩ : Ptr)
      · rw [if_pos hEnd, Option.some.injEq, Prod.mk.injEq] at h
        rw [← h.2]
        exact (readNext_ctr h1).1
      · rw [if_neg hEnd] at h
        rcases h2 : readNext (get_unmarked_ref xn).ref 0 s1 with _ | ⟨p, s2⟩
        · rw [h2] at h; simp at h
        · rw [h2] at h
          simp only [is_marked_ref] at h
          by_cases hm : p.mark = false
          · rw [if_pos hm, Option.some.injEq, Prod.mk.injEq] at h
            rw [← h.2]
            exact ctrInv_trans (readNext_ctr h1).1 (readNext_ctr h2).1
          · rw [if_neg hm] at h
            exact ctrInv_trans (readNext_ctr h1).1
              (ctrInv_trans (readNext_ctr h2).1 (IH i _ s2 r s' h))

theorem wshLevels_ctr : ∀ j fuel x lastXn s r s',
    wshLevels fuel j x lastXn s = some (r, s') → ctrInv s s' := by
  intro j
  induction j with
  | zero =>
    intro fuel x lastXn s r s' h
    simp only [wshLevels, Option.some.injEq, Prod.mk.injEq] at h
    rw [← h.2]
    exact ctrInv_refl s
  | succ j IH =>
    intro fuel x lastXn s r s' h
    simp only [wshLevels] at h
    rcases hin : wshInner j fuel x s with _ | ⟨⟨x1, xn⟩, s1⟩
    · rw [hin] at h; simp at h
    · rw [hin] at h
      simp only [] at h
      exact ctrInv_trans (wshInner_ctr fuel j x s (x1, xn) s1 hin) (IH fuel x1 xn s1 r s' h)

theorem weak_search_head_ctr : ∀ {fuel : Nat} {s : St} {r : Ref} {s' : St},
    weak_search_head fuel s = some (r, s') → ctrInv s s' := by
  intro fuel s r s' h
  unfold weak_search_head at h
  exact wshLevels_ctr NUM_LEVELS fuel _ _ s r s' h

theorem orphanLoop_ctr : ∀ fuel newId wfuel loop0 x s r s',
    orphanLoop newId wfuel fuel loop0 x s = some (r, s') → ctrInv s s' := by
  intro fuel
  induction fuel with
  | zero => intro newId wfuel loop0 x s r s' h; simp [orphanLoop] at h
  | succ f IH =>
    intro newId wfuel loop0 x s r s' h
    simp only [orphanLoop] at h
    rcases hpre : (if 10 < loop0 + 1 then
                     match weak_search_head wfuel s with
                     | none => none
                     | some (xh, s) => some ((0, xh), s)
                   else some ((loop0 + 1, x), s)) with _ | ⟨⟨l1, x1⟩, s1⟩
    · rw [hpre] at h; simp at h
    · rw [hpre] at h
      simp only [] at h
      have hc0 : ctrInv s s1 := by
        by_cases h10 : 10 < loop0 + 1
        · rw [if_pos h10] at hpre
          rcases hws : weak_search_head wfuel s with _ | ⟨xh, sws⟩
          · rw [hws] at hpre; simp at hpre
          · rw [hws] at hpre
            simp only [Option.some.injEq, Prod.mk.injEq] at hpre
            exact hpre.2 ▸ weak_search_head_ctr hws
        · rw [if_neg h10, Option.some.injEq, Prod.mk.injEq] at hpre
          rw [← hpre.2]
          exact ctrInv_refl s
      rcases h1 : readNext x1 0 s1 with _ | ⟨xn, s2⟩
      · rw [h1] at h; simp at h
      · rw [h1] at h
        simp only [is_marked_ref] at h
        by_cases hm : xn.mark = false
        · rw [if_pos hm] at h
          rcases h2 : writeNext (.node newId) 0 xn s2 with _ | ⟨u, s3⟩
          · rw [h2] at h; simp at h
          · rw [h2] at h
            simp only [] at h
            rcases h3 : caspo x1 0 xn ⟨.node newId, false⟩ s3 with _ | ⟨old, s4⟩
            · rw [h3] at h; simp at h
            · rw [h3] at h
              simp only [] at h
              have hchain := ctrInv_trans hc0 (ctrInv_trans (readNext_ctr h1).1
                (ctrInv_trans (writeNext_ctr h2) (caspo_ctr h3)))
              by_cases hok : old = xn
              · rw [if_pos hok, Option.some.injEq, Prod.mk.injEq] at h
                rw [← h.2]
                exact hchain
              · rw [if_neg hok] at h
                exact ctrInv_trans hchain (IH newId wfuel l1 _ s4 r s' h)
        · rw [if_neg hm] at h
          exact ctrInv_trans hc0 (ctrInv_trans (readNext_ctr h1).1
            (IH newId wfuel l1 _ s2 r s' h))

theorem initNexts_ctr : ∀ n newId succs s r s',
    initNexts newId succs n s = some (r, s') → ctrInv s s' := by
  intro n
  induction n with
  | zero =>
    intro newId succs s r s' h
    simp only [initNexts, Option.some.injEq, Prod.mk.injEq] at h
    rw [← h.2]
    exact ctrInv_refl s
  | succ n IH =>
    intro newId succs s r s' h
    simp only [initNexts] at h
    rcases h1 : initNexts newId succs n s with _ | ⟨u, s1⟩
    · rw [h1] at h; simp at h
    · rw [h1] at h
      simp only [] at h
      exact ctrInv_trans (IH newId succs s u s1 h1) (writeNext_ctr h)


theorem upperInsLoop_ctr : ∀ fuel k newId level wfuel i preds succs s r s',
    upperInsLoop k newId level wfuel fuel i preds succs s = some (r, s') →
    ctrInv s s' := by
  intro fuel
  induction fuel with
  | zero => intro k newId level wfuel i preds succs s r s' h; simp [upperInsLoop] at h
  | succ f IH =>
    intro k newId level wfuel i preds succs s r s' h
    simp only [upperInsLoop] at h
    by_cases hi : i < level
    · rw [if_pos hi] at h
      rcases h1 : readKey (.node newId) s with _ | ⟨nk, s1⟩
      · rw [h1] at h; simp at h
      · rw [h1] at h
        simp only [] at h
        have hc1 := (readKey_ctr h1).1
        by_cases hnk : nk ≠ k
        · rw [if_pos hnk, Option.some.injEq, Prod.mk.injEq] at h
          rw [← h.2]; exact hc1
        · rw [if_neg hnk] at h
          rcases h2 : readNext (.node newId) i s1 with _ | ⟨new_next, s2⟩
          · rw [h2] at h; simp at h
          · rw [h2] at h
            simp only [] at h
            have hc2 := ctrInv_trans hc1 (readNext_ctr h2).1
            rcases h3 : (if new_next ≠ (⟨succs i, false⟩ : Ptr) then
                           match caspo (.node newId) i new_next ⟨succs i, false⟩ s2 with
                           | none => none
                           | some (old, s) =>
                             if is_marked_ref old then some ((true, s))
                             else if old ≠ new_next then none
                             else some ((false, s))
                         else some ((false, s2))) with _ | ⟨stop, s4⟩
            · rw [h3] at h; simp at h
            · rw [h3] at h
              simp only [] at h
              have hc4 : ctrInv s s4 := by
                by_cases hnn : new_next ≠ (⟨succs i, false⟩ : Ptr)
                · rw [if_pos hnn] at h3
                  rcases h3a : caspo (.node newId) i new_next ⟨succs i, false⟩ s2 with _ | ⟨old, s3⟩
                  · rw [h3a] at h3; simp at h3
                  · rw [h3a] at h3
                    simp only [is_marked_ref] at h3
                    have hc3 := ctrInv_trans hc2 (caspo_ctr h3a)
                    by_cases hmo : old.mark = true
                    · rw [if_pos hmo, Option.some.injEq, Prod.mk.injEq] at h3
                      rw [← h3.2]; exact hc3
                    · rw [if_neg hmo] at h3
                      by_cases hon : old ≠ new_next
                      · rw [if_pos hon] at h3; simp at h3
                      · rw [if_neg hon, Option.some.injEq, Prod.mk.injEq] at h3
                        rw [← h3.2]; exact hc3
                · rw [if_neg hnn, Option.some.injEq, Prod.mk.injEq] at h3
                  rw [← h3.2]; exact hc2
              by_cases hstop : stop = true
              · rw [hstop] at h
                simp only [if_true] at h
                rw [Option.some.injEq, Prod.mk.injEq] at h
                rw [← h.2]; exact hc4
              · rw [Bool.not_eq_true] at hstop
                rw [hstop] at h
                simp only [Bool.false_eq_true, if_false] at h
                rcases h5 : readKey (preds i) s4 with _ | ⟨pk, s5⟩
                · rw [h5] at h; simp at h
                · rw [h5] at h
                  simp only [] at h
                  have hc5 := ctrInv_trans hc4 (readKey_ctr h5).1
                  by_cases hpk : k < pk
                  · rw [if_pos hpk] at h; simp at h
                  · rw [if_neg hpk] at h
                    rcases h6 : caspo (preds i) i ⟨succs i, false⟩ ⟨.node newId, false⟩ s5 with _ | ⟨old, s6⟩
                    · rw [h6] at h; simp at h
                    · rw [h6] at h
                      simp only [] at h
                      have hc6 := ctrInv_trans hc5 (caspo_ctr h6)
                      by_cases ho : old ≠ (⟨succs i, false⟩ : Ptr)
                      · rw [if_pos ho] at h
                        rcases h7 : readNext (.node newId) 0 s6 with _ | ⟨nx0, s7⟩
                        · rw [h7] at h; simp at h
                        · rw [h7] at h
                          simp only [is_marked_ref] at h
                          have hc7 := ctrInv_trans hc6 (readNext_ctr h7).1
                          by_cases hm0 : nx0.mark = true
                          · rw [if_pos hm0, Option.some.injEq, Prod.mk.injEq] at h
                            rw [← h.2]; exact hc7
                          · rw [if_neg hm0] at h
                            rcases h8 : readKey (.node newId) s7 with _ | ⟨nk2, s8⟩
                            · rw [h8] at h; simp at h
                            · rw [h8] at h
                              simp only [] at h
                              have hc8 := ctrInv_trans hc7 (readKey_ctr h8).1
                              by_cases hnk2 : nk2 ≠ k
                              · rw [if_pos hnk2, Option.some.injEq, Prod.mk.injEq] at h
                                rw [← h.2]; exact hc8
                              · rw [if_neg hnk2] at h
                                rcases h9 : weak_search_predecessors k false wfuel s8 with _ | ⟨⟨x2, preds2, succs2⟩, s9⟩
                                · rw [h9] at h; simp at h
                                · rw [h9] at h
                                  simp only [] at h
                                  have hc9 := ctrInv_trans hc8 (wsp_ctr h9).1
                                  by_cases hs2 : succs2 0 ≠ Ref.node newId
                                  · rw [if_pos hs2, Option.some.injEq, Prod.mk.injEq] at h
                                    rw [← h.2]; exact hc9
                                  · rw [if_neg hs2] at h
                                    exact ctrInv_trans hc9
                                      (IH k newId level wfuel i preds2 succs2 s9 r s' h)
                      · rw [if_neg ho] at h
                        exact ctrInv_trans hc6
                          (IH k newId level wfuel (i+1) preds succs s6 r s' h)
    · rw [if_neg hi, Option.some.injEq, Prod.mk.injEq] at h
      rw [← h.2]
      exact ctrInv_refl s


theorem updateBody_ctr : ∀ fuel k v wfuel newOpt s r s',
    updateBody k v wfuel fuel newOpt s = some (r, s') →
    ctrInv s s' ∧ s.total < s'.total := by
  intro fuel
  induction fuel with
  | zero => intro k v wfuel newOpt s r s' h; simp [updateBody] at h
  | succ f IH =>
    intro k v wfuel newOpt s r s' h
    simp only [updateBody] at h
    rcases h0 : (match newOpt with
                 | none =>
                   match alloc_node s with
                   | none => none
                   | some (n, s) =>
                     match writeKey (.node n) k s with
                     | none => none
                     | some (_, s) =>
                       match writeVal (.node n) v s with
                       | none => none
                       | some (_, s) => some (n, s)
                 | some n => some (n, s)) with _ | ⟨newId, s0⟩
    · rw [h0] at h; simp at h
    · rw [h0] at h
      simp only [] at h
      have hc0 : ctrInv s s0 := by
        rcases newOpt with _ | n
        · simp only [] at h0
          rcases ha : alloc_node s with _ | ⟨n, sa⟩
          · rw [ha] at h0; simp at h0
          · rw [ha] at h0
            simp only [] at h0
            rcases hb : writeKey (.node n) k sa with _ | ⟨u, sb⟩
            · rw [hb] at h0; simp at h0
            · rw [hb] at h0
              simp only [] at h0
              rcases hcw : writeVal (.node n) v sb with _ | ⟨u2, sc⟩
              · rw [hcw] at h0; simp at h0
              · rw [hcw] at h0
                simp only [Option.some.injEq, Prod.mk.injEq] at h0
                rw [← h0.2]
                exact ctrInv_trans (alloc_node_ctr ha)
                  (ctrInv_trans (writeKey_ctr hb) (writeVal_ctr hcw))
        · simp only [Option.some.injEq, Prod.mk.injEq] at h0
          rw [← h0.2]
          exact ctrInv_refl s
      rcases h1 : readLevel (.node newId) s0 with _ | ⟨level, s1⟩
      · rw [h1] at h; simp at h
      · rw [h1] at h
        simp only [] at h
        obtain ⟨hc1, hlt1⟩ := readLevel_ctr h1
        have hstrict : s.total < s1.total := by
          have := hc0.2.1; omega
        rcases h2 : weak_search_predecessors k false wfuel s1 with _ | ⟨⟨x2, preds, succs⟩, s2⟩
        · rw [h2] at h; simp at h
        · rw [h2] at h
          simp only [] at h
          have hd2 : ctrInv s1 s2 := (wsp_ctr h2).1
          rcases h3 : initNexts newId succs level s2 with _ | ⟨u3, s3⟩
          · rw [h3] at h; simp at h
          · rw [h3] at h
            simp only [] at h
            have hd3 := ctrInv_trans hd2 (initNexts_ctr level newId succs s2 u3 s3 h3)
            rcases h4 : caspo (preds 0) 0 ⟨succs 0, false⟩ ⟨.node newId, false⟩ s3 with _ | ⟨old, s4⟩
            · rw [h4] at h; simp at h
            · rw [h4] at h
              simp only [] at h
              have hd4 := ctrInv_trans hd3 (caspo_ctr h4)
              by_cases ho : old ≠ (⟨succs 0, false⟩ : Ptr)
              · rw [if_pos ho] at h
                rcases h5 : readNext (preds 0) 0 s4 with _ | ⟨p0, s5⟩
                · rw [h5] at h; simp at h
                · rw [h5] at h
                  simp only [is_marked_ref] at h
                  have hd5 := ctrInv_trans hd4 (readNext_ctr h5).1
                  by_cases hm : p0.mark = true
                  · rw [if_pos hm] at h
                    rcases h6 : writeLevel (.node newId) 1 s5 with _ | ⟨u6, s6⟩
                    · rw [h6] at h; simp at h
                    · rw [h6] at h
                      simp only [] at h
                      have hd6 := ctrInv_trans hd5 (writeLevel_ctr h6)
                      have hd7 := ctrInv_trans hd6 (orphanLoop_ctr wfuel newId wfuel 0 _ s6 r s' h)
                      have hmono := hd7.2.1
                      exact ⟨ctrInv_trans (ctrInv_trans hc0 hc1) hd7, by omega⟩
                  · rw [if_neg hm] at h
                    rcases h6 : weak_search_predecessors k false wfuel s5 with _ | ⟨w6, s6⟩
                    · rw [h6] at h; simp at h
                    · rw [h6] at h
                      simp only [] at h
                      have hd6 := ctrInv_trans hd5 (wsp_ctr h6).1
                      obtain ⟨hc7, _⟩ := IH k v wfuel (some newId) s6 r s' h
                      have hd7 := ctrInv_trans hd6 hc7
                      have hmono := hd7.2.1
                      exact ⟨ctrInv_trans (ctrInv_trans hc0 hc1) hd7, by omega⟩
              · rw [if_neg ho] at h
                have hd5 := ctrInv_trans hd4
                  (upperInsLoop_ctr wfuel k newId level wfuel 1 preds succs s4 r s' h)
                have hmono := hd5.2.1
                exact ⟨ctrInv_trans (ctrInv_trans hc0 hc1) hd5, by omega⟩

theorem rmLoop_ctr : ∀ fuel x offset s r s',
    rmLoop fuel x offset s = some (r, s') → ctrInv s s' ∧ s.total < s'.total := by
  intro fuel
  induction fuel with
  | zero => intro x offset s r s' h; simp [rmLoop] at h
  | succ f IH =>
    intro x offset s r s' h
    simp only [rmLoop] at h
    rcases h1 : readNext x 0 s with _ | ⟨x_next, s1⟩
    · rw [h1] at h; simp at h
    · rw [h1] at h
      simp only [] at h
      obtain ⟨hc1, hlt1⟩ := readNext_ctr h1
      by_cases hEnd : x_next = (⟨.END, false⟩ : Ptr)
      · rw [if_pos hEnd, Option.some.injEq, Prod.mk.injEq] at h
        rw [← h.2]
        exact ⟨hc1, hlt1⟩
      · rw [if_neg hEnd] at h
        rcases h2 : (if is_marked_ref x_next then some (x_next, s1) else faa0 x s1) with _ | ⟨x2, s2⟩
        · rw [h2] at h; simp at h
        · rw [h2] at h
          simp only [is_marked_ref] at h
          have hc2 : ctrInv s1 s2 := by
            by_cases hm : is_marked_ref x_next = true
            · rw [if_pos hm, Option.some.injEq, Prod.mk.injEq] at h2
              rw [← h2.2]
              exact ctrInv_refl s1
            · rw [if_neg hm] at h2
              exact faa0_ctr h2
          by_cases hm2 : x2.mark = true
          · rw [if_pos hm2] at h
            obtain ⟨hc3, _⟩ := IH _ _ s2 r s' h
            have := (ctrInv_trans hc2 hc3).2.1
            exact ⟨ctrInv_trans hc1 (ctrInv_trans hc2 hc3), by omega⟩
          · rw [if_neg hm2, Option.some.injEq, Prod.mk.injEq] at h
            rw [← h.2]
            have := hc2.2.1
            exact ⟨ctrInv_trans hc1 hc2, by omega⟩


theorem wseInner_ctr : ∀ fuel i x lvl s r s',
    wseInner i fuel x lvl s = some (r, s') → ctrInv s s' := by
  intro fuel
  induction fuel with
  | zero => intro i x lvl s r s' h; simp [wseInner] at h
  | succ f IH =>
    intro i x lvl s r s' h
    simp only [wseInner] at h
    rcases h1 : readNext x i s with _ | ⟨xn, s1⟩
    · rw [h1] at h; simp at h
    · rw [h1] at h
      simp only [] at h
      by_cases hm : xn.mark = true
      · rw [if_pos hm] at h; simp at h
      · rw [if_neg hm] at h
        rcases h2 : readNext xn.ref 0 s1 with _ | ⟨p, s2⟩
        · rw [h2] at h; simp at h
        · rw [h2] at h
          simp only [is_marked_ref] at h
          by_cases hp : p.mark = false
          · rw [if_pos hp, Option.some.injEq, Prod.mk.injEq] at h
            rw [← h.2]
            exact ctrInv_trans (readNext_ctr h1).1 (readNext_ctr h2).1
          · rw [if_neg hp] at h
            exact ctrInv_trans (readNext_ctr h1).1
              (ctrInv_trans (readNext_ctr h2).1 (IH i xn.ref _ s2 r s' h))

theorem wseLevels_ctr : ∀ j fuel x pa lvl s r s',
    wseLevels fuel j x pa lvl s = some (r, s') → ctrInv s s' := by
  intro j
  induction j with
  | zero =>
    intro fuel x pa lvl s r s' h
    simp only [wseLevels, Option.some.injEq, Prod.mk.injEq] at h
    rw [← h.2]
    exact ctrInv_refl s
  | succ j IH =>
    intro fuel x pa lvl s r s' h
    simp only [wseLevels] at h
    rcases hin : wseInner (j+1) fuel x lvl s with _ | ⟨⟨x1, lvl1⟩, s1⟩
    · rw [hin] at h; simp at h
    · rw [hin] at h
      simp only [] at h
      exact ctrInv_trans (wseInner_ctr fuel (j+1) x lvl s (x1, lvl1) s1 hin)
        (IH fuel x1 _ lvl1 s1 r s' h)

theorem weak_search_end_ctr : ∀ {toplvl : Option Nat} {fuel : Nat} {pa : Nat → Ref}
    {s : St} {r : (Nat → Ref) × Nat} {s' : St},
    weak_search_end toplvl fuel pa s = some (r, s') → ctrInv s s' := by
  intro toplvl fuel pa s r s' h
  unfold weak_search_end at h
  exact wseLevels_ctr _ fuel _ pa _ s r s' h

theorem upperCasLoop_ctr : ∀ fuel i wfuel pa next s r s',
    upperCasLoop i wfuel fuel pa next s = some (r, s') → ctrInv s s' := by
  intro fuel
  induction fuel with
  | zero => intro i wfuel pa next s r s' h; simp [upperCasLoop] at h
  | succ f IH =>
    intro i wfuel pa next s r s' h
    simp only [upperCasLoop] at h
    rcases h1 : readNext (pa i) i s with _ | ⟨pn, s1⟩
    · rw [h1] at h; simp at h
    · rw [h1] at h
      simp only [] at h
      rcases h2 : caspo (.node 0) i next pn s1 with _ | ⟨old, s2⟩
      · rw [h2] at h; simp at h
      · rw [h2] at h
        simp only [] at h
        have hc2 := ctrInv_trans (readNext_ctr h1).1 (caspo_ctr h2)
        by_cases ho : old = next
        · rw [if_pos ho, Option.some.injEq, Prod.mk.injEq] at h
          rw [← h.2]
          exact hc2
        · rw [if_neg ho] at h
          rcases h3 : weak_search_end (some i) wfuel pa s2 with _ | ⟨⟨pa2, l2⟩, s3⟩
          · rw [h3] at h; simp at h
          · rw [h3] at h
            simp only [] at h
            rcases h4 : readNext (.node 0) i s3 with _ | ⟨nx2, s4⟩
            · rw [h4] at h; simp at h
            · rw [h4] at h
              simp only [] at h
              exact ctrInv_trans hc2 (ctrInv_trans (weak_search_end_ctr h3)
                (ctrInv_trans (readNext_ctr h4).1 (IH i wfuel pa2 nx2 s4 r s' h)))

theorem upperLevels_ctr : ∀ lvl wfuel pa s r s',
    upperLevels wfuel lvl pa s = some (r, s') → ctrInv s s' := by
  intro lvl
  induction lvl with
  | zero =>
    intro wfuel pa s r s' h
    simp only [upperLevels, Option.some.injEq, Prod.mk.injEq] at h
    rw [← h.2]
    exact ctrInv_refl s
  | succ l IH =>
    intro wfuel pa s r s' h
    simp only [upperLevels] at h
    rcases h1 : readNext (.node 0) (l+1) s with _ | ⟨next, s1⟩
    · rw [h1] at h; simp at h
    · rw [h1] at h
      simp only [] at h
      rcases h2 : upperCasLoop (l+1) wfuel wfuel pa next s1 with _ | ⟨pa2, s2⟩
      · rw [h2] at h; simp at h
      · rw [h2] at h
        simp only [] at h
        exact ctrInv_trans (readNext_ctr h1).1
          (ctrInv_trans (upperCasLoop_ctr wfuel (l+1) wfuel pa next s1 pa2 s2 h2)
            (IH wfuel pa2 s2 r s' h))

theorem freeLoop_ctr : ∀ fuel xEnd cur s r s',
    freeLoop xEnd fuel cur s = some (r, s') → ctrInv s s' := by
  intro fuel
  induction fuel with
  | zero => intro xEnd cur s r s' h; simp [freeLoop] at h
  | succ f IH =>
    intro xEnd cur s r s' h
    simp only [freeLoop] at h
    by_cases hc : cur = xEnd
    · rw [if_pos hc, Option.some.injEq, Prod.mk.injEq] at h
      rw [← h.2]
      exact ctrInv_refl s
    · rw [if_neg hc] at h
      rcases h1 : free_node cur s with _ | ⟨u, s1⟩
      · rw [h1] at h; simp at h
      · rw [h1] at h
        simp only [] at h
        rcases h2 : readNext cur 0 s1 with _ | ⟨nxt, s2⟩
        · rw [h2] at h; simp at h
        · rw [h2] at h
          simp only [] at h
          exact ctrInv_trans (free_node_ctr h1)
            (ctrInv_trans (readNext_ctr h2).1 (IH xEnd _ s2 r s' h))

theorem rmCleanup_ctr : ∀ {xv obs : Ptr} {fuel : Nat} {s : St} {r : Unit} {s' : St},
    rmCleanup xv obs fuel s = some (r, s') → ctrInv s s' := by
  intro xv obs fuel s r s' h
  simp only [rmCleanup] at h
  rcases h1 : caspo (.node 0) 0 obs (get_marked_ref xv) s with _ | ⟨old, s1⟩
  · rw [h1] at h; simp at h
  · rw [h1] at h
    simp only [] at h
    have hc1 := caspo_ctr h1
    by_cases ho : old = obs
    · rw [if_pos ho] at h
      rcases h2 : weak_search_end none fuel (fun _ => .null) s1 with _ | ⟨⟨pa, lvl⟩, s2⟩
      · rw [h2] at h; simp at h
      · rw [h2] at h
        simp only [] at h
        rcases h3 : readNext (.node 0) 0 s2 with _ | ⟨h0, s3⟩
        · rw [h3] at h; simp at h
        · rw [h3] at h
          simp only [] at h
          have hc3 := ctrInv_trans hc1 (ctrInv_trans (weak_search_end_ctr h2)
            (readNext_ctr h3).1)
          by_cases hne : h0 ≠ get_marked_ref xv
          · rw [if_pos hne, Option.some.injEq, Prod.mk.injEq] at h
            rw [← h.2]
            exact hc3
          · rw [if_neg hne] at h
            rcases h4 : upperLevels fuel lvl pa s3 with _ | ⟨u, s4⟩
            · rw [h4] at h; simp at h
            · rw [h4] at h
              simp only [] at h
              exact ctrInv_trans hc3 (ctrInv_trans (upperLevels_ctr lvl fuel pa s3 u s4 h4)
                (freeLoop_ctr fuel _ _ s4 r s' h))
    · rw [if_neg ho, Option.some.injEq, Prod.mk.injEq] at h
      rw [← h.2]
      exact hc1


theorem bump_unprot_of_crit {s : St} (h : s.inCrit = true) : (bump s).unprot = s.unprot := by
  simp [bump, h]

theorem rmFinish_unprot : ∀ {k : Nat} {xv : Ptr} {fuel : Nat} {s : St} {r : Nat} {s' : St},
    rmFinish k xv fuel s = some (r, s') → s.inCrit = true →
    s'.unprot = s.unprot ∧ s.total < s'.total := by
  intro k xv fuel s r s' h hc
  simp only [rmFinish, readNext, getNode, bump_old_offset, bump_maxOffset, critical_exit] at h
  by_cases hg : s.old_offset ≤ s.maxOffset ∨ ¬(s.nodes 0).next 0 = s.old_obs_hp
  · rw [if_pos hg, Option.some.injEq, Prod.mk.injEq] at h
    rw [← h.2]
    exact ⟨bump_unprot_of_crit hc, by rw [bump_total]; omega⟩
  · rw [if_neg hg] at h
    rcases h2 : rmCleanup xv s.old_obs_hp fuel (bump s) with _ | ⟨u, s2⟩
    · rw [h2] at h; simp at h
    · rw [h2] at h
      simp only [Option.some.injEq, Prod.mk.injEq] at h
      have hcc := rmCleanup_ctr h2
      have hbc : (bump s).inCrit = true := hc
      rw [← h.2]
      have h1 := hcc.2.2.1 hbc
      have h2t := hcc.2.1
      refine ⟨?_, ?_⟩
      · show s2.unprot = s.unprot
        rw [h1, bump_unprot_of_crit hc]
      · show s.total < s2.total
        rw [bump_total] at h2t
        omega

theorem set_removemin_unprot : ∀ {fuel : Nat} {s : St} {r : Nat} {s' : St},
    set_removemin fuel s = some (r, s') → s.inCrit = false →
    s'.unprot = s.unprot ∧ s.total < s'.total := by
  intro fuel s r s' h hc
  simp only [set_removemin, critical_enter] at h
  set s1 : St := { s with inCrit := true } with hs1
  have hs1c : s1.inCrit = true := rfl
  rcases h1 : readNext (.node 0) 0 s1 with _ | ⟨h0, s2⟩
  · rw [h1] at h; simp at h
  · rw [h1] at h
    simp only [] at h
    have hc1 := (readNext_ctr h1).1
    have hlt1 := (readNext_ctr h1).2
    rcases h2 : (if s2.old_obs_hp = h0 then some (s2.pt, s2)
                 else
                   match readNext (.node 0) 0 s2 with
                   | none => none
                   | some (hp, s3) =>
                     some (Ref.node 0, { s3 with old_offset := 0, old_obs_hp := hp })) with _ | ⟨x, s3⟩
    · rw [h2] at h; simp at h
    · rw [h2] at h
      simp only [] at h
      have hc2 : ctrInv s2 s3 := by
        by_cases he : s2.old_obs_hp = h0
        · rw [if_pos he, Option.some.injEq, Prod.mk.injEq] at h2
          rw [← h2.2]
          exact ctrInv_refl s2
        · rw [if_neg he] at h2
          rcases h2a : readNext (.node 0) 0 s2 with _ | ⟨hp, s2a⟩
          · rw [h2a] at h2; simp at h2
          · rw [h2a] at h2
            simp only [Option.some.injEq, Prod.mk.injEq] at h2
            rw [← h2.2]
            exact ctrInv_trans (readNext_ctr h2a).1 (ctrInv_eq rfl rfl rfl)
      rcases h3 : rmLoop fuel x 0 s3 with _ | ⟨res, s4⟩
      · rw [h3] at h; simp at h
      · rw [h3] at h
        obtain ⟨hc3, hlt3⟩ := rmLoop_ctr fuel x 0 s3 res s4 h3
        have hchain : ctrInv s1 s4 := ctrInv_trans hc1 (ctrInv_trans hc2 hc3)
        rcases res with kk | ⟨x_next, offset⟩
        · simp only [Option.some.injEq, Prod.mk.injEq] at h
          rw [← h.2]
          have hu := hchain.2.2.1 hs1c
          have ht := hchain.2.1
          have : s1.total = s.total := rfl
          have : s1.unprot = s.unprot := rfl
          refine ⟨by omega, ?_⟩
          have hlt1' := hlt1
          have h23 := hc2.2.1
          have h34 := hc3.2.1
          show s.total < s4.total
          have : s1.total = s.total := rfl
          omega
        · simp only [] at h
          set s5 : St := { s4 with pt := x_next.ref, old_offset := s4.old_offset + offset } with hs5
          have hc5 : ctrInv s4 s5 := ctrInv_eq rfl rfl rfl
          rcases h6 : readVal x_next.ref s5 with _ | ⟨v, s6⟩
          · rw [h6] at h; simp at h
          · rw [h6] at h
            simp only [] at h
            rcases h7 : readKey x_next.ref s6 with _ | ⟨kk, s7⟩
            · rw [h7] at h; simp at h
            · rw [h7] at h
              simp only [] at h
              have hfull : ctrInv s1 s7 := ctrInv_trans hchain (ctrInv_trans hc5
                (ctrInv_trans (readVal_ctr h6).1 (readKey_ctr h7).1))
              have hs7c : s7.inCrit = true := by rw [hfull.1]
              obtain ⟨hfu, hft⟩ := rmFinish_unprot h hs7c
              have hu := hfull.2.2.1 hs1c
              have ht := hfull.2.1
              have ht1 : s1.total = s.total := rfl
              have hu1 : s1.unprot = s.unprot := rfl
              have hl1' := hlt1
              constructor
              · omega
              · omega

theorem set_update_unprot : ∀ {k v fuel : Nat} {s : St} {r : Unit} {s' : St},
    set_update k v fuel s = some (r, s') → s.inCrit = false →
    s'.unprot = s.unprot ∧ s.total < s'.total ∧ s'.inCrit = false := by
  intro k v fuel s r s' h hc
  simp only [set_update, critical_enter, critical_exit] at h
  set s1 : St := { s with inCrit := true } with hs1
  have hs1c : s1.inCrit = true := rfl
  rcases h1 : updateBody k v fuel fuel none s1 with _ | ⟨u, s2⟩
  · rw [h1] at h; simp at h
  · rw [h1] at h
    simp only [Option.some.injEq, Prod.mk.injEq] at h
    obtain ⟨hc1, hlt1⟩ := updateBody_ctr fuel k v fuel none s1 u s2 h1
    rw [← h.2]
    have hu := hc1.2.2.1 hs1c
    have ht1 : s1.total = s.total := rfl
    have hu1 : s1.unprot = s.unprot := rfl
    have hlt2 := hc1.2.1
    refine ⟨?_, ?_, rfl⟩
    · show s2.unprot = s.unprot
      omega
    · show s.total < s2.total
      omega

theorem set_remove_unprot : ∀ {key fuel : Nat} {s : St} {r : Option Ptr} {s' : St},
    set_remove key fuel s = some (r, s') → s.inCrit = false →
    s'.inCrit = false ∧ s'.unprot + s.total = s.unprot + s'.total ∧ s.total < s'.total := by
  intro key fuel s r s' h hc
  simp only [set_remove] at h
  rcases h1 : weak_search_predecessors key true fuel s with _ | ⟨⟨x, pa, na⟩, s1⟩
  · rw [h1] at h; simp at h
  · rw [h1] at h
    simp only [] at h
    obtain ⟨hc1, hlt1⟩ := wsp_ctr h1
    rcases h2 : fao0 x s1 with _ | ⟨old, s2⟩
    · rw [h2] at h; simp at h
    · rw [h2] at h
      simp only [is_marked_ref] at h
      have hc2 := fao0_ctr h2
      have hfull := ctrInv_trans hc1 hc2
      have hfin : s' = s2 := by
        by_cases hm : old.mark = true
        · rw [if_pos hm, Option.some.injEq, Prod.mk.injEq] at h
          exact h.2.symm
        · rw [if_neg hm, Option.some.injEq, Prod.mk.injEq] at h
          exact h.2.symm
      subst hfin
      have e1 := hfull.2.2.2 hc
      have e2 := hfull.2.1
      have e3 := hc2.2.1
      exact ⟨by rw [hfull.1, hc], by omega, by omega⟩


/-- Claim C10: `set_update` and `set_removemin` bracket all their
shared-memory accesses between `critical_enter` and `critical_exit` —
started outside a critical section, they add **no** unprotected access
(`unprot` unchanged) while performing at least one access — whereas
`set_remove` never enters a critical section: every one of its accesses
(its whole traversal and the marking fetch-and-or) is unprotected, so
epoch reclamation does not cover its reads. -/
theorem epoch_protection_spec :
    (∀ k v fuel s r s', set_update k v fuel s = some (r, s') → s.inCrit = false →
       s'.unprot = s.unprot ∧ s.total < s'.total ∧ s'.inCrit = false) ∧
    (∀ fuel s r s', set_removemin fuel s = some (r, s') → s.inCrit = false →
       s'.unprot = s.unprot ∧ s.total < s'.total) ∧
    (∀ key fuel s r s', set_remove key fuel s = some (r, s') → s.inCrit = false →
       s'.inCrit = false ∧ s'.unprot + s.total = s.unprot + s'.total ∧ s.total < s'.total) :=
  ⟨fun _ _ _ _ _ _ h hc => set_update_unprot h hc,
   fun _ _ _ _ h hc => set_removemin_unprot h hc,
   fun _ _ _ _ _ h hc => set_remove_unprot h hc⟩

def q5updRun : Unit × St := (set_update 7 7 100 q5).getD ((), q5)
def q5rmmRun : Nat × St := (set_removemin 100 q5).getD (0, q5)

theorem epoch_protection_spec_witness :
    (q5updRun.2.unprot = q5.unprot ∧ q5.total < q5updRun.2.total ∧ q5updRun.2.inCrit = false) ∧
    (q5rmmRun.2.unprot = q5.unprot ∧ q5.total < q5rmmRun.2.total) ∧
    (q5removeRun.2.inCrit = false ∧
     q5removeRun.2.unprot + q5.total = q5.unprot + q5removeRun.2.total ∧
     q5.total < q5removeRun.2.total) :=
  ⟨epoch_protection_spec.1 7 7 100 q5 q5updRun.1 q5updRun.2 rfl (by decide),
   epoch_protection_spec.2.1 100 q5 q5rmmRun.1 q5rmmRun.2 rfl (by decide),
   epoch_protection_spec.2.2 5 100 q5 q5removeRun.1 q5removeRun.2 rfl (by decide)⟩

end PrioQ

/-!  Distribution of `get_level` (claim C8) and the uniform benchmark
workload `work_uni` (claim C9). -/

namespace PrioQ

theorem card_filter_div (A B : Nat) (hA : 0 < A) (P : Nat → Prop) [DecidablePred P] :
    ((Finset.range (A * B)).filter (fun r => P (r / A))).card
      = A * ((Finset.range B).filter P).card := by
  have hp : ((Finset.range A) ×ˢ ((Finset.range B).filter P)).card
      = A * ((Finset.range B).filter P).card := by
    rw [Finset.card_product, Finset.card_range]
  rw [← hp]
  refine Finset.card_nbij' (fun r => (r % A, r / A)) (fun t => t.1 + A * t.2) ?_ ?_ ?_ ?_
  · intro r hr
    simp only [Finset.mem_filter, Finset.mem_range] at hr
    simp only [Finset.mem_product, Finset.mem_filter, Finset.mem_range]
    exact ⟨Nat.mod_lt _ hA, Nat.div_lt_of_lt_mul hr.1, hr.2⟩
  · intro t ht
    simp only [Finset.mem_product, Finset.mem_filter, Finset.mem_range] at ht
    obtain ⟨h1, h2, hP⟩ := ht
    simp only [Finset.mem_filter, Finset.mem_range]
    have hdiv : (t.1 + A * t.2) / A = t.2 := by
      rw [Nat.add_mul_div_left _ _ hA, Nat.div_eq_of_lt h1]
      omega
    refine ⟨?_, ?_⟩
    · have hle : A * (t.2 + 1) ≤ A * B := Nat.mul_le_mul_left A (by omega)
      have : A * (t.2 + 1) = A * t.2 + A := by ring
      omega
    · show P ((t.1 + A * t.2) / A)
      rw [hdiv]
      exact hP
  · intro r hr
    show r % A + A * (r / A) = r
    exact Nat.mod_add_div r A
  · intro t ht
    simp only [Finset.mem_product, Finset.mem_filter, Finset.mem_range] at ht
    obtain ⟨h1, h2, hP⟩ := ht
    show ((t.1 + A * t.2) % A, (t.1 + A * t.2) / A) = t
    rw [Nat.add_mul_mod_self_left, Nat.mod_eq_of_lt h1,
        Nat.add_mul_div_left _ _ hA, Nat.div_eq_of_lt h1]
    simp

theorem card_filter_mod (M K : Nat) (hM : 0 < M) (P : Nat → Prop) [DecidablePred P] :
    ((Finset.range (M * K)).filter (fun q => P (q % M))).card
      = K * ((Finset.range M).filter P).card := by
  have hp : (((Finset.range M).filter P) ×ˢ (Finset.range K)).card
      = K * ((Finset.range M).filter P).card := by
    rw [Finset.card_product, Finset.card_range]
    ring
  rw [← hp]
  refine Finset.card_nbij' (fun q => (q % M, q / M)) (fun t => t.1 + M * t.2) ?_ ?_ ?_ ?_
  · intro q hq
    simp only [Finset.mem_filter, Finset.mem_range] at hq
    simp only [Finset.mem_product, Finset.mem_filter, Finset.mem_range]
    exact ⟨⟨Nat.mod_lt _ hM, hq.2⟩, Nat.div_lt_of_lt_mul hq.1⟩
  · intro t ht
    simp only [Finset.mem_product, Finset.mem_filter, Finset.mem_range] at ht
    obtain ⟨⟨h1, hP⟩, h2⟩ := ht
    simp only [Finset.mem_filter, Finset.mem_range]
    refine ⟨?_, ?_⟩
    · have hle : M * (t.2 + 1) ≤ M * K := Nat.mul_le_mul_left M (by omega)
      have : M * (t.2 + 1) = M * t.2 + M := by ring
      omega
    · show P ((t.1 + M * t.2) % M)
      rw [Nat.add_mul_mod_self_left, Nat.mod_eq_of_lt h1]
      exact hP
  · intro q hq
    show q % M + M * (q / M) = q
    exact Nat.mod_add_div q M
  · intro t ht
    simp only [Finset.mem_product, Finset.mem_filter, Finset.mem_range] at ht
    obtain ⟨⟨h1, hP⟩, h2⟩ := ht
    show ((t.1 + M * t.2) % M, (t.1 + M * t.2) / M) = t
    rw [Nat.add_mul_mod_self_left, Nat.mod_eq_of_lt h1,
        Nat.add_mul_div_left _ _ hM, Nat.div_eq_of_lt h1]
    simp
theorem ctoAux_congr : ∀ b1 m b2, m ≤ b1 → m ≤ b2 → ctoAux b1 m = ctoAux b2 m := by
  intro b1
  induction b1 with
  | zero =>
    intro m b2 h1 h2
    have hm : m = 0 := by omega
    subst hm
    cases b2 <;> simp [ctoAux]
  | succ b IH =>
    intro m b2 h1 h2
    cases b2 with
    | zero =>
      have hm : m = 0 := by omega
      subst hm
      simp [ctoAux]
    | succ c =>
      simp only [ctoAux]
      by_cases hm : m % 2 = 1
      · rw [if_pos hm, if_pos hm, IH (m / 2) c (by omega) (by omega)]
      · rw [if_neg hm, if_neg hm]

theorem cto_even {m : Nat} (h : m % 2 = 0) : cto m = 0 := by
  unfold cto
  cases m with
  | zero => simp [ctoAux]
  | succ mm => simp [ctoAux, h]

theorem cto_odd {m : Nat} (h : m % 2 = 1) : cto m = cto (m / 2) + 1 := by
  unfold cto
  cases m with
  | zero => simp at h
  | succ mm =>
    simp only [ctoAux, h, if_true]
    rw [ctoAux_congr mm ((mm + 1) / 2) ((mm + 1) / 2) (by omega) (le_refl _)]

theorem mod_two_mul (m n : Nat) (hn : 0 < n) :
    m % (2 * n) = m % 2 + 2 * (m / 2 % n) := by
  have h1 : m = 2 * n * (m / 2 / n) + (2 * (m / 2 % n) + m % 2) := by
    calc m = 2 * (m / 2) + m % 2 := (Nat.div_add_mod m 2).symm
    _ = 2 * (n * (m / 2 / n) + m / 2 % n) + m % 2 := by rw [Nat.div_add_mod (m / 2) n]
    _ = 2 * n * (m / 2 / n) + (2 * (m / 2 % n) + m % 2) := by ring
  have h2 : 2 * (m / 2 % n) + m % 2 < 2 * n := by
    have := Nat.mod_lt (m / 2) hn
    have := Nat.mod_lt m (show 0 < 2 by omega)
    omega
  calc m % (2 * n) = (2 * n * (m / 2 / n) + (2 * (m / 2 % n) + m % 2)) % (2 * n) := by
        rw [← h1]
  _ = (2 * (m / 2 % n) + m % 2) % (2 * n) := by rw [Nat.mul_add_mod]
  _ = 2 * (m / 2 % n) + m % 2 := Nat.mod_eq_of_lt h2
  _ = m % 2 + 2 * (m / 2 % n) := by omega

theorem cto_eq_iff : ∀ j m, cto m = j ↔ m % 2 ^ (j + 1) = 2 ^ j - 1 := by
  intro j
  induction j with
  | zero =>
    intro m
    simp only [pow_one, pow_zero]
    constructor
    · intro h
      rcases Nat.mod_two_eq_zero_or_one m with hm | hm
      · omega
      · rw [cto_odd hm] at h
        omega
    · intro h
      exact cto_even (by omega)
  | succ j IH =>
    intro m
    have hpow : 2 ^ (j + 1 + 1) = 2 * 2 ^ (j + 1) := by ring
    have hsplit := mod_two_mul m (2 ^ (j + 1)) (Nat.pos_pow_of_pos _ (by omega))
    have h2j : 1 ≤ 2 ^ j := Nat.one_le_two_pow
    have h2j1 : 2 ^ (j + 1) = 2 * 2 ^ j := by ring
    constructor
    · intro h
      have hm : m % 2 = 1 := by
        rcases Nat.mod_two_eq_zero_or_one m with hm | hm
        · rw [cto_even hm] at h; omega
        · exact hm
      rw [cto_odd hm] at h
      have hrec := (IH (m / 2)).mp (by omega)
      rw [hpow, hsplit, hm, hrec]
      omega
    · intro h
      rw [hpow, hsplit] at h
      have hx := Nat.mod_lt (m / 2) (show 0 < 2 ^ (j + 1) from Nat.pos_pow_of_pos _ (by omega))
      have hm : m % 2 = 1 := by omega
      have hrec : m / 2 % 2 ^ (j + 1) = 2 ^ j - 1 := by omega
      rw [cto_odd hm, (IH (m / 2)).mpr hrec]

theorem card_range_mul_filter_mod (M K c : Nat) (hc : c < M) :
    ((Finset.range (M * K)).filter (fun m => m % M = c)).card = K := by
  have hM : 0 < M := by omega
  refine (Finset.card_nbij' (fun m => m / M) (fun t => c + M * t)
    ?_ ?_ ?_ ?_).trans (Finset.card_range K)
  · intro m hm
    simp only [Finset.mem_filter, Finset.mem_range] at hm
    simp only [Finset.mem_range]
    exact Nat.div_lt_of_lt_mul (by omega)
  · intro t ht
    simp only [Finset.mem_range] at ht
    simp only [Finset.mem_filter, Finset.mem_range]
    refine ⟨?_, ?_⟩
    · have h1 : M * (t + 1) = M * t + M := by ring
      have h2 : M * (t + 1) ≤ M * K := Nat.mul_le_mul_left M (by omega)
      omega
    · rw [Nat.add_mul_mod_self_left, Nat.mod_eq_of_lt hc]
  · intro m hm
    simp only [Finset.mem_filter, Finset.mem_range] at hm
    show c + M * (m / M) = m
    have := Nat.div_add_mod m M
    omega
  · intro t ht
    show (c + M * t) / M = t
    rw [Nat.add_mul_div_left _ _ hM, Nat.div_eq_of_lt hc]
    omega

/-- `level_of` in arithmetic form: the shift keeps `r / 16` and the
mask keeps its low 31 bits. -/
theorem level_of_eq (r : Nat) : level_of r = 1 + cto (r / 16 % 2 ^ 31) := by
  unfold level_of
  have h1 : r >>> 4 = r / 16 := by
    rw [Nat.shiftRight_eq_div_pow]
  have h2 : ((1 <<< (NUM_LEVELS - 1)) - 1 : Nat) = 2 ^ 31 - 1 := by decide
  rw [h1, h2, Nat.and_pow_two_sub_one_eq_mod]

/-- A number below `2 ^ n` has at most `n` trailing one bits. -/
theorem cto_lt_of_lt : ∀ n m, m < 2 ^ n → cto m ≤ n := by
  intro n
  induction n with
  | zero =>
    intro m hm
    have : m = 0 := by omega
    subst this
    simp [cto, ctoAux]
  | succ n IH =>
    intro m hm
    rcases Nat.mod_two_eq_zero_or_one m with hp | hp
    · rw [cto_even hp]
      omega
    · rw [cto_odd hp]
      have hlt : m / 2 < 2 ^ n := by
        have h2 : (2:Nat) ^ (n+1) = 2 * 2 ^ n := by ring
        omega
      have := IH (m / 2) hlt
      omega

/-- Exactly `2 ^ (64 - k)` of the `2 ^ 64` random words produce level
`k`, for each `k` in `1..31`. -/
theorem level_count (k : Nat) (hk1 : 1 ≤ k) (hk2 : k < NUM_LEVELS) :
    ((Finset.range (2 ^ 64)).filter (fun r => level_of r = k)).card * 2 ^ k = 2 ^ 64 := by
  have hk2' : k ≤ 31 := by
    have : NUM_LEVELS = 32 := rfl
    omega
  have hc1 : (1:Nat) ≤ 2 ^ (k - 1) := Nat.one_le_two_pow
  have hcbound : 2 ^ (k - 1) - 1 < 2 ^ k := by
    have : (2:Nat) ^ (k - 1) ≤ 2 ^ k := Nat.pow_le_pow_right (by omega) (by omega)
    omega
  have hpred : ∀ r, (level_of r = k) ↔ (r / 16 % 2 ^ 31 % 2 ^ k = 2 ^ (k - 1) - 1) := by
    intro r
    rw [level_of_eq r]
    have hiff : (1 + cto (r / 16 % 2 ^ 31) = k) ↔ (cto (r / 16 % 2 ^ 31) = k - 1) := by omega
    rw [hiff, cto_eq_iff]
    have hkk : k - 1 + 1 = k := by omega
    rw [hkk]
  have h64 : (2:Nat) ^ 64 = 16 * 2 ^ 60 := by norm_num
  have h60 : (2:Nat) ^ 60 = 2 ^ 31 * 2 ^ 29 := by norm_num
  have h31 : (2:Nat) ^ 31 = 2 ^ k * 2 ^ (31 - k) := by
    rw [← pow_add]
    congr 1
    omega
  have step1 : ((Finset.range (2 ^ 64)).filter (fun r => level_of r = k)).card
      = ((Finset.range (2 ^ 64)).filter
          (fun r => r / 16 % 2 ^ 31 % 2 ^ k = 2 ^ (k - 1) - 1)).card := by
    rw [Finset.filter_congr (fun x _ => (hpred x))]
  have step2 : ((Finset.range (2 ^ 64)).filter
      (fun r => r / 16 % 2 ^ 31 % 2 ^ k = 2 ^ (k - 1) - 1)).card
      = 16 * ((Finset.range (2 ^ 60)).filter
          (fun q => q % 2 ^ 31 % 2 ^ k = 2 ^ (k - 1) - 1)).card := by
    rw [h64]
    exact card_filter_div 16 (2 ^ 60) (by norm_num)
      (fun q => q % 2 ^ 31 % 2 ^ k = 2 ^ (k - 1) - 1)
  have step3 : ((Finset.range (2 ^ 60)).filter
      (fun q => q % 2 ^ 31 % 2 ^ k = 2 ^ (k - 1) - 1)).card
      = 2 ^ 29 * ((Finset.range (2 ^ 31)).filter
          (fun m => m % 2 ^ k = 2 ^ (k - 1) - 1)).card := by
    rw [h60]
    exact card_filter_mod (2 ^ 31) (2 ^ 29) (by norm_num)
      (fun m => m % 2 ^ k = 2 ^ (k - 1) - 1)
  have step4 : ((Finset.range (2 ^ 31)).filter
      (fun m => m % 2 ^ k = 2 ^ (k - 1) - 1)).card = 2 ^ (31 - k) := by
    rw [h31]
    exact card_range_mul_filter_mod (2 ^ k) (2 ^ (31 - k)) (2 ^ (k - 1) - 1) hcbound
  rw [step1, step2, step3, step4]
  have hfin : (16 : Nat) * (2 ^ 29 * 2 ^ (31 - k)) * 2 ^ k
      = 2 ^ 4 * 2 ^ 29 * 2 ^ (31 - k + k) := by
    rw [pow_add]
    ring
  rw [hfin, show 31 - k + k = 31 by omega]
  norm_num


/-- The level computed from any random word lies in `1..NUM_LEVELS`. -/
theorem level_of_bounds (r : Nat) : 1 ≤ level_of r ∧ level_of r ≤ NUM_LEVELS := by
  rw [level_of_eq]
  constructor
  · omega
  · have h := cto_lt_of_lt 31 (r / 16 % 2 ^ 31) (Nat.mod_lt _ (by norm_num))
    show 1 + cto (r / 16 % 2 ^ 31) ≤ NUM_LEVELS
    have h32 : NUM_LEVELS = 32 := rfl
    omega

/-- Claim C8: for every random word drawn at allocation, `get_level`
returns `level_of` of that word, a level in `1..NUM_LEVELS`; and for
each level `k` below the cap, exactly a `2 ^ -k` fraction of the
`2 ^ 64` random words is mapped to level `k` (stated integrally:
`card * 2 ^ k = 2 ^ 64`). -/
theorem get_level_distribution (k : Nat) (hk1 : 1 ≤ k) (hk2 : k < NUM_LEVELS) :
    (∀ s r s1, get_level s = some (r, s1) →
        1 ≤ r ∧ r ≤ NUM_LEVELS ∧ r = level_of (s.rands s.randIdx))
    ∧ ((Finset.range (2 ^ 64)).filter (fun r => level_of r = k)).card * 2 ^ k = 2 ^ 64 := by
  refine ⟨?_, level_count k hk1 hk2⟩
  intro s r s1 h
  simp only [get_level, rand_next, Option.some.injEq, Prod.mk.injEq] at h
  obtain ⟨h1, _⟩ := h
  subst h1
  exact ⟨(level_of_bounds _).1, (level_of_bounds _).2, rfl⟩

theorem get_level_distribution_witness :
    (1 ≤ 3 ∧ 3 < NUM_LEVELS)
    ∧ ((∀ s r s1, get_level s = some (r, s1) →
          1 ≤ r ∧ r ≤ NUM_LEVELS ∧ r = level_of (s.rands s.randIdx))
       ∧ ((Finset.range (2 ^ 64)).filter (fun r => level_of r = 3)).card * 2 ^ 3 = 2 ^ 64) :=
  ⟨⟨by decide, by decide⟩, get_level_distribution 3 (by decide) (by decide)⟩


/-- Inverse of the `rand48` state transition modulo `2 ^ 48`
(`246154705703781` is the modular inverse of the multiplier
`25214903917`); used to count the RNG states taking each branch. -/
def unstep (y : Nat) : Nat :=
  (246154705703781 * ((y + (2 ^ 48 - 11)) % 2 ^ 48)) % 2 ^ 48

theorem mul_ainv_mod : (246154705703781 * 25214903917) % 2 ^ 48 = 1 := by decide

theorem ainv_mul_mod : (25214903917 * 246154705703781) % 2 ^ 48 = 1 := by decide

theorem mul_mod_cancel_right (c d n : Nat) : (c * (d % n)) % n = (c * d) % n := by
  rw [Nat.mul_mod c (d % n), Nat.mod_mod_of_dvd d (dvd_refl n), ← Nat.mul_mod]

theorem mul_mod_cancel_left (c d n : Nat) : ((c % n) * d) % n = (c * d) % n := by
  rw [Nat.mul_mod (c % n) d, Nat.mod_mod_of_dvd c (dvd_refl n), ← Nat.mul_mod]

theorem add_mul_mod_cancel_right (c d e n : Nat) :
    (c * (d % n) + e) % n = (c * d + e) % n := by
  calc (c * (d % n) + e) % n
      = ((c * (d % n)) % n + e) % n := (Nat.mod_add_mod _ _ _).symm
    _ = ((c * d) % n + e) % n := by rw [mul_mod_cancel_right]
    _ = (c * d + e) % n := Nat.mod_add_mod _ _ _

theorem add_mul_mod_cancel_left (c d e n : Nat) :
    ((c % n) * d + e) % n = (c * d + e) % n := by
  calc ((c % n) * d + e) % n
      = (((c % n) * d) % n + e) % n := (Nat.mod_add_mod _ _ _).symm
    _ = ((c * d) % n + e) % n := by rw [mul_mod_cancel_left]
    _ = (c * d + e) % n := Nat.mod_add_mod _ _ _

theorem unstep_lt (y : Nat) : unstep y < 2 ^ 48 := by
  unfold unstep
  exact Nat.mod_lt _ (by norm_num)

theorem unstep_step (x : Nat) (hx : x < 2 ^ 48) : unstep (rand48_step x) = x := by
  unfold unstep rand48_step
  rw [Nat.mod_add_mod]
  rw [show 25214903917 * x + 11 + (2 ^ 48 - 11) = 25214903917 * x + 2 ^ 48 from by omega]
  rw [Nat.add_mod_right]
  rw [mul_mod_cancel_right]
  rw [← Nat.mul_assoc]
  rw [Nat.mul_mod (246154705703781 * 25214903917) x]
  rw [mul_ainv_mod, Nat.one_mul]
  rw [Nat.mod_mod_of_dvd x (dvd_refl _)]
  exact Nat.mod_eq_of_lt hx

theorem step_unstep (y : Nat) (hy : y < 2 ^ 48) : rand48_step (unstep y) = y := by
  unfold unstep rand48_step
  rw [add_mul_mod_cancel_right]
  rw [← Nat.mul_assoc]
  rw [add_mul_mod_cancel_right]
  rw [← add_mul_mod_cancel_left (25214903917 * 246154705703781) (y + (2 ^ 48 - 11)) 11 (2 ^ 48)]
  rw [ainv_mul_mod, Nat.one_mul]
  rw [show y + (2 ^ 48 - 11) + 11 = y + 2 ^ 48 from by omega]
  rw [Nat.add_mod_right]
  exact Nat.mod_eq_of_lt hy

/-- Exactly half of the `2 ^ 48` RNG states make `erand48 < 0.5` true:
the state transition is a bijection of `[0, 2 ^ 48)` and the fresh
state is compared against `2 ^ 47`. -/
theorem insert_branch_half :
    ((Finset.range (2 ^ 48)).filter (fun x => erand48_lt_half x = true)).card * 2 = 2 ^ 48 := by
  have hstep : ∀ x, erand48_lt_half x = true ↔ rand48_step x < 2 ^ 47 := by
    intro x
    simp [erand48_lt_half]
  have hcard : ((Finset.range (2 ^ 48)).filter (fun x => erand48_lt_half x = true)).card
      = 2 ^ 47 := by
    rw [Finset.filter_congr (fun x _ => hstep x)]
    refine (Finset.card_nbij' rand48_step unstep ?_ ?_ ?_ ?_).trans
      (Finset.card_range (2 ^ 47))
    · intro x hx
      simp only [Finset.mem_filter, Finset.mem_range] at hx
      simp only [Finset.mem_range]
      exact hx.2
    · intro y hy
      simp only [Finset.mem_range] at hy
      simp only [Finset.mem_filter, Finset.mem_range]
      have h2 : rand48_step (unstep y) = y := step_unstep y (lt_trans hy (by norm_num))
      exact ⟨unstep_lt y, by rw [h2]; exact hy⟩
    · intro x hx
      simp only [Finset.mem_filter, Finset.mem_range] at hx
      show unstep (rand48_step x) = x
      exact unstep_step x hx.1
    · intro y hy
      simp only [Finset.mem_range] at hy
      show rand48_step (unstep y) = y
      exact step_unstep y (lt_trans hy (by norm_num))
  rw [hcard]
  norm_num

/-- The uniform workload key `1 + nrand48(...)` lies in `[1, 2 ^ 31]`. -/
theorem uniInsertKey_bounds (x : Nat) :
    1 ≤ uniInsertKey x ∧ uniInsertKey x ≤ 2 ^ 31 := by
  unfold uniInsertKey nrand48
  have h1 : ∀ z, rand48_step z < 2 ^ 48 := by
    intro z
    unfold rand48_step
    exact Nat.mod_lt _ (by norm_num)
  have h248 : (2:Nat) ^ 17 * 2 ^ 31 = 2 ^ 48 := by norm_num
  have h2 : rand48_step (rand48_step x) >>> 17 < 2 ^ 31 := by
    rw [Nat.shiftRight_eq_div_pow]
    exact Nat.div_lt_of_lt_mul (h248 ▸ h1 (rand48_step x))
  omega


/-- A successful `work_uni` call runs `insert(elem, elem)` when
`erand48 < 0.5` and `deletemin` otherwise, propagating that call's
final state. -/
theorem work_uni_branches (x fuel : Nat) (s : St) (out : Nat × St)
    (h : work_uni x fuel s = some out) :
    (erand48_lt_half x = true →
      ∃ ws1, insert (uniInsertKey x) (uniInsertKey x) fuel s = some ws1
        ∧ out = (rand48_step (rand48_step x), ws1.2))
    ∧ (erand48_lt_half x = false →
      ∃ ws1, deletemin fuel s = some ws1 ∧ out = (rand48_step x, ws1.2)) := by
  simp only [work_uni] at h
  by_cases hb : erand48_lt_half x
  · rw [if_pos hb] at h
    rcases hI : insert (uniInsertKey x) (uniInsertKey x) fuel s with _ | ⟨w, s1⟩ <;>
      rw [hI] at h
    · cases h
    · simp only [Option.some.injEq] at h
      constructor
      · intro _
        exact ⟨(w, s1), rfl, h.symm⟩
      · intro hf
        rw [hb] at hf
        cases hf
  · rw [if_neg hb] at h
    rcases hD : deletemin fuel s with _ | ⟨w, s1⟩ <;> rw [hD] at h
    · cases h
    · simp only [Option.some.injEq] at h
      constructor
      · intro ht
        exact absurd ht hb
      · intro _
        exact ⟨(w, s1), rfl, h.symm⟩

/-- Claim C9: in the uniform benchmark workload, an operation is an
insert exactly when `erand48 < 0.5`, which happens for exactly half of
the `2 ^ 48` RNG states (probability 0.5), and a `delete_min`
otherwise; every inserted key is a positive pseudorandom integer that
fits in 48 bits (the embedding shows the sharper bound
`1 + nrand48 ≤ 2 ^ 31`). -/
theorem work_uni_spec :
    (((Finset.range (2 ^ 48)).filter (fun x => erand48_lt_half x = true)).card * 2 = 2 ^ 48)
    ∧ (∀ x, 1 ≤ uniInsertKey x ∧ uniInsertKey x < 2 ^ 48)
    ∧ (∀ x fuel s out, work_uni x fuel s = some out →
        (erand48_lt_half x = true →
          ∃ ws1, insert (uniInsertKey x) (uniInsertKey x) fuel s = some ws1
            ∧ out = (rand48_step (rand48_step x), ws1.2))
        ∧ (erand48_lt_half x = false →
          ∃ ws1, deletemin fuel s = some ws1 ∧ out = (rand48_step x, ws1.2))) := by
  refine ⟨insert_branch_half, ?_, ?_⟩
  · intro x
    have h := uniInsertKey_bounds x
    have h31 : (2:Nat) ^ 31 < 2 ^ 48 := by norm_num
    exact ⟨h.1, by omega⟩
  · intro x fuel s out h
    exact work_uni_branches x fuel s out h

/-- A concrete `work_uni` run: RNG state 0 (`erand48 < 0.5` holds, so
it inserts) on the fresh queue `q0`. -/
def q9run : Nat × St := (work_uni 0 80 q0).getD (0, q0)

theorem work_uni_spec_witness :
    work_uni 0 80 q0 = some q9run
    ∧ ((erand48_lt_half 0 = true →
          ∃ ws1, insert (uniInsertKey 0) (uniInsertKey 0) 80 q0 = some ws1
            ∧ q9run = (rand48_step (rand48_step 0), ws1.2))
       ∧ (erand48_lt_half 0 = false →
          ∃ ws1, deletemin 80 q0 = some ws1 ∧ q9run = (rand48_step 0, ws1.2))) :=
  ⟨rfl, work_uni_spec.2.2 0 80 q0 q9run rfl⟩

end PrioQ
